import Mathlib

/-!
Verification of the search cores of a Pacman AI assignment
(`pacai/student/multiagents.py` and `pacai/student/search.py`):
adversarial game-tree search (minimax, alpha-beta pruning, expectimax),
the composite leaf evaluator `betterEvaluationFunction`, the reflex
evaluator, and breadth-first graph search.

The game-state and search-problem interfaces are external collaborators
(`pacai.core.gamestate`, the search problem classes); they are embedded as
structures of opaque capability functions, exactly the capabilities the
source consumes.  The recursive engines are embedded with an explicit
structural fuel parameter: the source recursion is bounded by the depth
counter reaching `getTreeDepth()`, and every theorem below is quantified
over (or seeded with) sufficient fuel.
-/

namespace PacSearch

/-- Extended rationals used for the `alpha` and `beta` bounds of
`AlphaBetaAgent`: `⊥` models the initial `-inf` and `⊤` the initial `inf`
(`from cmath import inf`).  Leaf evaluations are always finite. -/
abbrev EV : Type := WithBot (WithTop ℚ)

/-- Embed a finite value into the extended rationals. -/
def toEV (q : ℚ) : EV := ((q : WithTop ℚ) : EV)

/-- The abstract game-state interface consumed by the adversarial agents
(`pacai.core.gamestate.AbstractGameState`): legal actions per agent,
successor generation, the agent count, the configured maximum tree depth
(`getTreeDepth()`), the injected evaluation function
(`self._evaluationFunction`), and the distinguished no-op action
(`Directions.STOP`).  A `Game` value fixes one game state space together
with one agent configuration. -/
structure Game (S A : Type) where
  numAgents : Nat
  treeDepth : Nat
  legal : Nat → S → List A
  succ : Nat → A → S → S
  eval : S → ℚ
  stop : A

variable {S A : Type} [DecidableEq A]

/-- The branch list every engine iterates over: the legal actions of the
agent with the no-op filtered out, as done at the top of `maxValue`,
`minValue`, `expectimaxValue` and `ExpectimaxAgent.getAction`:
`if Directions.STOP in legalActions: legalActions.remove(Directions.STOP)`.
Python `list.remove` deletes the first occurrence only, which is exactly
`List.erase`. -/
def branches (g : Game S A) (agent : Nat) (s : S) : List A :=
  let l := g.legal agent s
  if g.stop ∈ l then l.erase g.stop else l

/-- One iteration of the minimax maximizing loop (lines 138-152): starting
from `bestValue = -inf` (modelled by the accumulator `none`), replace the
best pair exactly when the new value strictly improves it
(`if value > bestValue`). -/
def mmStepMax (childVal : A → ℚ) (acc : Option (ℚ × A)) (a : A) : Option (ℚ × A) :=
  let v := childVal a
  match acc with
  | none => some (v, a)
  | some (bv, ba) => if bv < v then some (v, a) else some (bv, ba)

/-- One iteration of the minimax minimizing loop (lines 170-183), with
`bestValue = inf` modelled by `none` and the strict test `value < bestValue`. -/
def mmStepMin (childVal : A → ℚ) (acc : Option (ℚ × A)) (a : A) : Option (ℚ × A) :=
  let v := childVal a
  match acc with
  | none => some (v, a)
  | some (bv, ba) => if v < bv then some (v, a) else some (bv, ba)

/-- Package the loop accumulator as the returned `(bestValue, bestAction)`
pair.  The `none` case corresponds to the loop body never running, which is
unreachable because the callers guard on a non-empty action list; Python
would return `(-inf, None)` there. -/
def finishMM (g : Game S A) (s : S) (acc : Option (ℚ × A)) : ℚ × Option A :=
  match acc with
  | some (bv, ba) => (bv, some ba)
  | none => (g.eval s, none)

mutual

/-- `MinimaxAgent.maxValue(gameState, agent, depth)` (lines 122-153),
with explicit structural fuel.  Returns `(bestValue, bestAction)`;
`none` is Python `None`. -/
def mmMax (g : Game S A) : Nat → S → Nat → Nat → ℚ × Option A
  | 0, s, _, _ => (g.eval s, none)
  | fuel + 1, s, agent, depth =>
    let acts := branches g agent s
    if depth = g.treeDepth ∨ acts = [] then (g.eval s, none)
    else
      finishMM g s (acts.foldl
        (mmStepMax (fun a =>
          let s2 := g.succ agent a s
          let next := (agent + 1) % g.numAgents
          if next = 0 then (mmMax g fuel s2 next (depth + 1)).1
          else (mmMin g fuel s2 next depth).1)) none)

/-- `MinimaxAgent.minValue(gameState, agent, depth)` (lines 155-185). -/
def mmMin (g : Game S A) : Nat → S → Nat → Nat → ℚ × Option A
  | 0, s, _, _ => (g.eval s, none)
  | fuel + 1, s, agent, depth =>
    let acts := branches g agent s
    if depth = g.treeDepth ∨ acts = [] then (g.eval s, none)
    else
      finishMM g s (acts.foldl
        (mmStepMin (fun a =>
          let s2 := g.succ agent a s
          let next := (agent + 1) % g.numAgents
          if next = 0 then (mmMax g fuel s2 next (depth + 1)).1
          else (mmMin g fuel s2 next depth).1)) none)

end

/-- `MinimaxAgent.getAction` (lines 111-120): return the action component of
`maxValue(gameState, 0, 0)`. -/
def mmGetAction (g : Game S A) (fuel : Nat) (s : S) : Option A :=
  (mmMax g fuel s 0 0).2

/-- Accumulator for the alpha-beta loops: `done` records an early cutoff
return `(value, action)`, `running` carries the current best pair (`none`
is the infinite initial `bestValue`) together with the locally updated
bound (alpha in `maxValue`, beta in `minValue`). -/
inductive AbAcc (A : Type) where
  | done (v : ℚ) (a : A)
  | running (best : Option (ℚ × A)) (bound : EV)

/-- One iteration of `AlphaBetaAgent.maxValue` (lines 223-240): on strict
improvement update the best pair and raise alpha
(`alpha = max(alpha, value)`); afterwards, if `value >= beta`, return
`(value, action)` immediately, cutting off the remaining branches. -/
def abStepMax (β : EV) (childVal : A → EV → ℚ) (acc : AbAcc A) (a : A) : AbAcc A :=
  match acc with
  | .done v b => .done v b
  | .running best α =>
    let v := childVal a α
    let upd : Option (ℚ × A) × EV :=
      match best with
      | none => (some (v, a), max α (toEV v))
      | some (bv, ba) =>
        if bv < v then (some (v, a), max α (toEV v)) else (some (bv, ba), α)
    if β ≤ toEV v then .done v a else .running upd.1 upd.2

/-- One iteration of `AlphaBetaAgent.minValue` (lines 259-276): on strict
improvement update the best pair and lower beta (`beta = min(beta, value)`);
afterwards, if `value <= alpha`, return `(value, action)` immediately. -/
def abStepMin (α : EV) (childVal : A → EV → ℚ) (acc : AbAcc A) (a : A) : AbAcc A :=
  match acc with
  | .done v b => .done v b
  | .running best β =>
    let v := childVal a β
    let upd : Option (ℚ × A) × EV :=
      match best with
      | none => (some (v, a), min β (toEV v))
      | some (bv, ba) =>
        if v < bv then (some (v, a), min β (toEV v)) else (some (bv, ba), β)
    if toEV v ≤ α then .done v a else .running upd.1 upd.2

/-- Package the alpha-beta loop accumulator as the returned pair.  As in
`finishMM`, the `running none` case is unreachable behind the non-empty
guard. -/
def finishAB (g : Game S A) (s : S) : AbAcc A → ℚ × Option A
  | .done v a => (v, some a)
  | .running (some (bv, ba)) _ => (bv, some ba)
  | .running none _ => (g.eval s, none)

mutual

/-- `AlphaBetaAgent.maxValue(gameState, agent, depth, alpha, beta)`
(lines 207-242), with explicit structural fuel. -/
def abMax (g : Game S A) : Nat → S → Nat → Nat → EV → EV → ℚ × Option A
  | 0, s, _, _, _, _ => (g.eval s, none)
  | fuel + 1, s, agent, depth, α, β =>
    let acts := branches g agent s
    if depth = g.treeDepth ∨ acts = [] then (g.eval s, none)
    else
      finishAB g s (acts.foldl
        (abStepMax β (fun a α2 =>
          let s2 := g.succ agent a s
          let next := (agent + 1) % g.numAgents
          if next = 0 then (abMax g fuel s2 next (depth + 1) α2 β).1
          else (abMin g fuel s2 next depth α2 β).1)) (.running none α))

/-- `AlphaBetaAgent.minValue(gameState, agent, depth, alpha, beta)`
(lines 244-278). -/
def abMin (g : Game S A) : Nat → S → Nat → Nat → EV → EV → ℚ × Option A
  | 0, s, _, _, _, _ => (g.eval s, none)
  | fuel + 1, s, agent, depth, α, β =>
    let acts := branches g agent s
    if depth = g.treeDepth ∨ acts = [] then (g.eval s, none)
    else
      finishAB g s (acts.foldl
        (abStepMin α (fun a β2 =>
          let s2 := g.succ agent a s
          let next := (agent + 1) % g.numAgents
          if next = 0 then (abMax g fuel s2 next (depth + 1) α β2).1
          else (abMin g fuel s2 next depth α β2).1)) (.running none β))

end

/-- `AlphaBetaAgent.getAction` (lines 196-205): the action component of
`maxValue(gameState, 0, 0, -inf, inf)`. -/
def abGetAction (g : Game S A) (fuel : Nat) (s : S) : Option A :=
  (abMax g fuel s 0 0 ⊥ ⊤).2

/-- Python `max` over a value list; the `[]` case is unreachable (Python
`max([])` raises) because all call sites guard on a non-empty list. -/
def pyMax (l : List ℚ) : ℚ :=
  match l with
  | [] => 0
  | x :: xs => xs.foldl max x

/-- `ExpectimaxAgent.expectimaxValue(gameState, agent, depth)`
(lines 320-350), with explicit structural fuel: collect the values of all
filtered branches, then return their maximum for agent 0 and
`sum(values) / len(legalActions)` for every other agent. -/
def expValue (g : Game S A) : Nat → S → Nat → Nat → ℚ
  | 0, s, _, _ => g.eval s
  | fuel + 1, s, agent, depth =>
    let acts := branches g agent s
    if depth = g.treeDepth ∨ acts = [] then g.eval s
    else
      let values := acts.map (fun a =>
        let s2 := g.succ agent a s
        let next := (agent + 1) % g.numAgents
        let nd := if next = 0 then depth + 1 else depth
        expValue g fuel s2 next nd)
      if agent = 0 then pyMax values
      else values.sum / (acts.length : ℚ)

/-- The branch-value list collected by `expectimaxValue` before averaging
(lines 332-342), named so theorems can speak about it. -/
def expChildren (g : Game S A) (fuel : Nat) (s : S) (agent depth : Nat) : List ℚ :=
  (branches g agent s).map (fun a =>
    expValue g fuel (g.succ agent a s) ((agent + 1) % g.numAgents)
      (if (agent + 1) % g.numAgents = 0 then depth + 1 else depth))

/-- `ExpectimaxAgent.getAction` (lines 291-318): if the filtered root action
list is empty return `Directions.STOP`, else maximize
`expectimaxValue(successor, 1, 0)` over the root actions with the same
strict-improvement loop as the other agents. -/
def expGetAction (g : Game S A) (fuel : Nat) (s : S) : Option A :=
  let acts := branches g 0 s
  if acts = [] then some g.stop
  else
    match acts.foldl (mmStepMax (fun a => expValue g fuel (g.succ 0 a s) 1 0)) none with
    | some (_, a) => some a
    | none => none

/-! ### Instrumented engines counting evaluation-function calls

The same recursions as `mmMax`/`mmMin` and `abMax`/`abMin`, additionally
returning how many times `g.eval` is invoked.  Minimax control flow does not
depend on values, so its instrumentation only returns the count; alpha-beta
cutoffs do depend on values, so its instrumentation carries the full
`(value, action)` result alongside the count. -/

mutual

/-- Number of `self._evaluationFunction` calls performed by
`MinimaxAgent.maxValue`: one per leaf, and the sum over all explored
branches at an inner node (the loop always explores every branch). -/
def mmMaxCount (g : Game S A) : Nat → S → Nat → Nat → Nat
  | 0, _, _, _ => 1
  | fuel + 1, s, agent, depth =>
    let acts := branches g agent s
    if depth = g.treeDepth ∨ acts = [] then 1
    else
      (acts.map (fun a =>
        let s2 := g.succ agent a s
        let next := (agent + 1) % g.numAgents
        if next = 0 then mmMaxCount g fuel s2 next (depth + 1)
        else mmMinCount g fuel s2 next depth)).sum

/-- Number of evaluation calls performed by `MinimaxAgent.minValue`. -/
def mmMinCount (g : Game S A) : Nat → S → Nat → Nat → Nat
  | 0, _, _, _ => 1
  | fuel + 1, s, agent, depth =>
    let acts := branches g agent s
    if depth = g.treeDepth ∨ acts = [] then 1
    else
      (acts.map (fun a =>
        let s2 := g.succ agent a s
        let next := (agent + 1) % g.numAgents
        if next = 0 then mmMaxCount g fuel s2 next (depth + 1)
        else mmMinCount g fuel s2 next depth)).sum

end

mutual

/-- `AlphaBetaAgent.maxValue` instrumented with the number of evaluation
calls: identical control flow to `abMax`, but once a cutoff fires
(`value >= beta`) the remaining branches contribute no further calls. -/
def abMaxC (g : Game S A) : Nat → S → Nat → Nat → EV → EV → (ℚ × Option A) × Nat
  | 0, s, _, _, _, _ => ((g.eval s, none), 1)
  | fuel + 1, s, agent, depth, α, β =>
    let acts := branches g agent s
    if depth = g.treeDepth ∨ acts = [] then ((g.eval s, none), 1)
    else
      let r := acts.foldl
        (fun (acc : AbAcc A × Nat) a =>
          match acc with
          | (.done v b, n) => (.done v b, n)
          | (.running best α2, n) =>
            let child :=
              (if (agent + 1) % g.numAgents = 0
                then abMaxC g fuel (g.succ agent a s) ((agent + 1) % g.numAgents)
                  (depth + 1) α2 β
                else abMinC g fuel (g.succ agent a s) ((agent + 1) % g.numAgents)
                  depth α2 β)
            let v := child.1.1
            let upd : Option (ℚ × A) × EV :=
              match best with
              | none => (some (v, a), max α2 (toEV v))
              | some (bv, ba) =>
                if bv < v then (some (v, a), max α2 (toEV v)) else (some (bv, ba), α2)
            if β ≤ toEV v then (.done v a, n + child.2)
            else (.running upd.1 upd.2, n + child.2))
        (.running none α, 0)
      (finishAB g s r.1, r.2)

/-- `AlphaBetaAgent.minValue` instrumented with the number of evaluation
calls. -/
def abMinC (g : Game S A) : Nat → S → Nat → Nat → EV → EV → (ℚ × Option A) × Nat
  | 0, s, _, _, _, _ => ((g.eval s, none), 1)
  | fuel + 1, s, agent, depth, α, β =>
    let acts := branches g agent s
    if depth = g.treeDepth ∨ acts = [] then ((g.eval s, none), 1)
    else
      let r := acts.foldl
        (fun (acc : AbAcc A × Nat) a =>
          match acc with
          | (.done v b, n) => (.done v b, n)
          | (.running best β2, n) =>
            let child :=
              (if (agent + 1) % g.numAgents = 0
                then abMaxC g fuel (g.succ agent a s) ((agent + 1) % g.numAgents)
                  (depth + 1) α β2
                else abMinC g fuel (g.succ agent a s) ((agent + 1) % g.numAgents)
                  depth α β2)
            let v := child.1.1
            let upd : Option (ℚ × A) × EV :=
              match best with
              | none => (some (v, a), min β2 (toEV v))
              | some (bv, ba) =>
                if v < bv then (some (v, a), min β2 (toEV v)) else (some (bv, ba), β2)
            if toEV v ≤ α then (.done v a, n + child.2)
            else (.running upd.1 upd.2, n + child.2))
        (.running none β, 0)
      (finishAB g s r.1, r.2)

end

/-! ### The pacman state model used by the two concrete evaluators

`betterEvaluationFunction` and `ReflexAgent.evaluationFunction` consume a
concrete pacman game state through these accessors: pacman position
(`getPacmanPosition`), remaining food positions (`getFood().asList()`),
ghost positions (`getGhostStates()`, of which only `._position` is read),
capsule positions (`getCapsules()`) and the raw score (`getScore()`). -/

structure PacState where
  pacman : ℤ × ℤ
  food : List (ℤ × ℤ)
  ghosts : List (ℤ × ℤ)
  capsules : List (ℤ × ℤ)
  score : ℚ

/-- Modelled from the spec: `pacai.core.distance.manhattan` is framework
code outside `src/`; the spec calls it the Manhattan distance between grid
positions. -/
def manhattan (p q : ℤ × ℤ) : ℤ :=
  |p.1 - q.1| + |p.2 - q.2|

/-- Python `min` over a distance list; the `[]` case is unreachable
(Python `min([])` raises) because the only call site guards on a non-empty
food list. -/
def pyMin (l : List ℤ) : ℤ :=
  match l with
  | [] => 0
  | x :: xs => xs.foldl min x

/-- The sentinel override loop shared by both evaluators:
`for ghostDistance in ghostDistances: if ghostDistance < t: eval = -999999`.
The threshold `t` is 1 in `betterEvaluationFunction` and 2 in
`ReflexAgent.evaluationFunction`. -/
def ghostOverride (t : ℤ) (ghostDistances : List ℤ) (e : ℤ) : ℤ :=
  ghostDistances.foldl (fun e d => if d < t then -999999 else e) e

/-- `betterEvaluationFunction(currentGameState)` (lines 353-398): raw score
when no food remains; otherwise raw score plus the negated minimum distance
to a capsule (preferred when any exist) or to a food item, overridden to
`-999999` when some ghost is at Manhattan distance `< 1`. -/
def betterEvaluationFunction (s : PacState) : ℚ :=
  let ghostDistances := s.ghosts.map (fun gh => manhattan s.pacman gh)
  if s.food = [] then s.score
  else
    let capsuleDistances := s.capsules.map (fun c => manhattan s.pacman c)
    let foodDistances := s.food.map (fun f => manhattan s.pacman f)
    let distances := if capsuleDistances ≠ [] then capsuleDistances else foodDistances
    let e := -(pyMin distances)
    s.score + (ghostOverride 1 ghostDistances e : ℚ)

/-- `ReflexAgent.evaluationFunction(currentGameState, action)`
(lines 48-85).  The successor state produced by
`generatePacmanSuccessor(action)` is framework code, so it is passed in
explicitly.  The evaluator reads the new pacman position and ghost states
from the successor and the food list from the current state, sorts the food
distances and takes `foodDistances[0]`; `none` models the Python
`IndexError` raised by that indexing when the list is empty (there is no
empty-food guard in this evaluator).  The Python guard `if food:` on a
coordinate tuple is always true (a non-empty tuple is truthy), so every
food position contributes a distance. -/
def reflexEvaluationFunction (current successor : PacState) : Option ℚ :=
  let newPosition := successor.pacman
  let oldFood := current.food
  let ghostDistances := successor.ghosts.map (fun gh => manhattan newPosition gh)
  let foodDistances := (oldFood.map (fun f => manhattan newPosition f)).mergeSort (· ≤ ·)
  match foodDistances with
  | [] => none
  | d :: _ => some ((ghostOverride 2 ghostDistances (-d) : ℤ) : ℚ)

/-! ### Graph search (`pacai/student/search.py`)

The FIFO queue `pacai.util.queue.Queue` is framework code outside `src/`;
modelled from the spec: a FIFO frontier, popped from the front with pushes
appended at the back. -/

/-- The abstract search-problem interface (`startingState()`,
`isGoal(state)`, `successorStates(state) -> (state, action, cost)`). -/
structure SearchProblem (S A : Type) where
  start : S
  isGoal : S → Bool
  succ : S → List (S × A × ℚ)

/-- The distinct "not implemented" fault raised by the unimplemented
strategies (`raise NotImplementedError()`). -/
inductive SearchFault where
  | notImplemented
deriving DecidableEq

/-- `depthFirstSearch(problem)` (lines 8-25): immediately raises
`NotImplementedError`. -/
def depthFirstSearch (_problem : SearchProblem S A) :
    Except SearchFault (Option (List A)) :=
  .error .notImplemented

/-- `uniformCostSearch(problem)` (lines 69-75): immediately raises
`NotImplementedError`. -/
def uniformCostSearch (_problem : SearchProblem S A) :
    Except SearchFault (Option (List A)) :=
  .error .notImplemented

/-- `aStarSearch(problem, heuristic)` (lines 77-83): immediately raises
`NotImplementedError`. -/
def aStarSearch (_problem : SearchProblem S A) (_heuristic : S → ℚ) :
    Except SearchFault (Option (List A)) :=
  .error .notImplemented

/-- A frontier node of `breadthFirstSearch`: `(state, actions from start,
cost)`, the cost component being always 0 (unused, per the source comment). -/
abbrev BfsNode (S A : Type) := S × List A × ℚ

/-- The loop of `breadthFirstSearch` (lines 48-67), with explicit structural
fuel distinguishing exhaustion (`none`) from the loop's own outcomes
(`some none` for an emptied frontier, `some (some path)` for a found goal):
pop the frontier front; skip states already in `reached`; return the action
path on a goal; otherwise mark reached and append every successor with its
extended action path. -/
def bfsLoop [DecidableEq S] (p : SearchProblem S A) :
    Nat → List (BfsNode S A) → List S → Option (Option (List A))
  | 0, _, _ => none
  | _ + 1, [], _ => some none
  | fuel + 1, node :: rest, reached =>
    if node.1 ∈ reached then bfsLoop p fuel rest reached
    else if p.isGoal node.1 then some (some node.2.1)
    else
      bfsLoop p fuel
        (rest ++ (p.succ node.1).map (fun c => (c.1, node.2.1 ++ [c.2.1], 0)))
        (reached ++ [node.1])

/-- Fuel bound for `bfsLoop`: one more than the initial value of the
decreasing potential `frontier.length + Σ_{s unreached} (1 + |succ s|)`. -/
def bfsFuel [Fintype S] (p : SearchProblem S A) : Nat :=
  2 + Finset.sum Finset.univ (fun s => 1 + (p.succ s).length)

/-- `breadthFirstSearch(problem)` (lines 27-67): immediate empty path when
the start is a goal, else run the FIFO loop from the start node; `none`
models the Python `return None` on an emptied frontier.  The fuel is large
enough that exhaustion is unreachable (`bfsLoop_no_exhaustion` below), so
collapsing it onto `none` is sound. -/
def breadthFirstSearch [DecidableEq S] [Fintype S] (p : SearchProblem S A) :
    Option (List A) :=
  if p.isGoal p.start then some []
  else
    match bfsLoop p (bfsFuel p) [(p.start, [], 0)] [] with
    | some r => r
    | none => none

/-- A path in a search problem: `Path p s as t` holds when following the
actions `as` from state `s` along `successorStates` edges reaches `t`. -/
inductive Path (p : SearchProblem S A) : S → List A → S → Prop where
  | nil (s : S) : Path p s [] s
  | cons {s t u : S} {a : A} {c : ℚ} {as : List A} :
      (t, a, c) ∈ p.succ s → Path p t as u → Path p s (a :: as) u

/-- Some goal state is reachable from the start state. -/
def goalReachable (p : SearchProblem S A) : Prop :=
  ∃ (as : List A) (t : S), Path p p.start as t ∧ p.isGoal t = true

/-- The potential that strictly decreases on every `bfsLoop` iteration:
the frontier length plus, for every state not yet reached, one plus its
successor count. -/
def bfsPotential [DecidableEq S] [Fintype S] (p : SearchProblem S A)
    (frontier : List (BfsNode S A)) (reached : List S) : Nat :=
  frontier.length + Finset.sum (Finset.univ.filter (fun s => s ∉ reached))
    (fun s => 1 + (p.succ s).length)

/-- The loop invariant of `breadthFirstSearch`: frontier paths are valid,
reached states are expanded non-goals whose successors are reached or on
the frontier, the start is covered, and the frontier splits into a block of
depth-`k` nodes followed by a block of depth-`k+1` nodes such that every
state with a path shorter than `k` is reached and every state with a path
of length at most `k` is reached or sits in the first block. -/
def BfsInv [DecidableEq S] (p : SearchProblem S A)
    (frontier : List (BfsNode S A)) (reached : List S) : Prop :=
  (∀ n ∈ frontier, Path p p.start n.2.1 n.1) ∧
  (∀ s ∈ reached, p.isGoal s = false) ∧
  (∀ s ∈ reached, ∀ c ∈ p.succ s, c.1 ∈ reached ∨ ∃ n ∈ frontier, n.1 = c.1) ∧
  (p.start ∈ reached ∨ ∃ n ∈ frontier, n.1 = p.start) ∧
  ∃ (k : Nat) (F1 F2 : List (BfsNode S A)),
    frontier = F1 ++ F2 ∧
    (∀ n ∈ F1, n.2.1.length = k) ∧
    (∀ n ∈ F2, n.2.1.length = k + 1) ∧
    (∀ (t : S) (q : List A), Path p p.start q t → q.length < k → t ∈ reached) ∧
    (∀ (t : S) (q : List A), Path p p.start q t → q.length ≤ k →
      t ∈ reached ∨ ∃ n ∈ F1, n.1 = t)

/-- What `bfsLoop` guarantees about its result: either it found a path to
some goal that is weakly shorter than every path from the start to any
goal, or it emptied its frontier and no goal is reachable; it never runs
out of fuel. -/
def BfsOutcome (p : SearchProblem S A) (r : Option (Option (List A))) : Prop :=
  (∃ path, r = some (some path) ∧
    (∃ t, Path p p.start path t ∧ p.isGoal t = true) ∧
    (∀ (q : List A) (t2 : S), Path p p.start q t2 → p.isGoal t2 = true →
      path.length ≤ q.length)) ∨
  (r = some none ∧ ¬ goalReachable p)

/-! ### Named pieces of the recursion bodies, for stating lemmas -/

/-- Python `min` over a value list (the dual of `pyMax`); the `[]` case is
unreachable at its use sites. -/
def pyMinQ (l : List ℚ) : ℚ :=
  match l with
  | [] => 0
  | x :: xs => xs.foldl min x

/-- The child-value dispatch shared by `MinimaxAgent.maxValue` and
`MinimaxAgent.minValue` (lines 139-148 and 170-180): generate the
successor, advance the agent index mod the agent count, recurse into
`maxValue` with incremented depth when the index wraps to 0 and into
`minValue` otherwise, and keep the value component. -/
def mmChild (g : Game S A) (fuel : Nat) (s : S) (agent depth : Nat) (a : A) : ℚ :=
  let s2 := g.succ agent a s
  let next := (agent + 1) % g.numAgents
  if next = 0 then (mmMax g fuel s2 next (depth + 1)).1
  else (mmMin g fuel s2 next depth).1

/-- The child-value dispatch of `AlphaBetaAgent.maxValue` and
`AlphaBetaAgent.minValue`, carrying the `(alpha, beta)` bounds. -/
def abChild (g : Game S A) (fuel : Nat) (s : S) (agent depth : Nat) (α β : EV) (a : A) : ℚ :=
  let s2 := g.succ agent a s
  let next := (agent + 1) % g.numAgents
  if next = 0 then (abMax g fuel s2 next (depth + 1) α β).1
  else (abMin g fuel s2 next depth α β).1

/-- The Knuth-Moore relation between the value `r` returned by an
alpha-beta node called with window `(α, β)` and the value `m` of the same
node under plain minimax: fail-low results bound the true value from above,
fail-high results bound it from below, and results strictly inside the
window are exact. -/
def KM (α β : EV) (r m : ℚ) : Prop :=
  (toEV r ≤ α → m ≤ r) ∧ (β ≤ toEV r → r ≤ m) ∧
  (α < toEV r → toEV r < β → r = m)

/-! ### Concrete instances used as test subjects and witnesses -/

/-- The arithmetic mean of a list of values, as the spec words it
("the arithmetic mean of the values of all that agent's legal successor
branches"). -/
def arithMean (l : List ℚ) : ℚ := l.sum / (l.length : ℚ)

/-- A 2-ply, branching-factor-2 game whose second root branch is dominated:
states are numerals (root 0, root children 1 and 2, grandchildren `10*s+a`),
both agents always have actions `[1, 2]`, the no-op `9` never occurs, and
the leaf values under the second root child (0 and 5) are dominated by the
first child's minimax value 10. -/
def prunableGame : Game Nat Nat where
  numAgents := 2
  treeDepth := 1
  legal := fun _ _ => [1, 2]
  succ := fun _ a s => s * 10 + a
  eval := fun s =>
    if s = 11 then 10 else if s = 12 then 10 else if s = 21 then 0 else 5
  stop := 9

/-- A game in which the only legal action of every agent is the no-op,
so the filtered action list at the root is empty. -/
def stopOnlyGame : Game Nat Nat where
  numAgents := 2
  treeDepth := 2
  legal := fun _ _ => [0]
  succ := fun _ _ s => s
  eval := fun _ => 7
  stop := 0

/-- A three-state line graph (0 → 1 → 2 with goal 2, actions labelled by
numbers) used as the breadth-first-search witness. -/
def lineProb : SearchProblem (Fin 3) Nat where
  start := 0
  isGoal := fun s => s = 2
  succ := fun s =>
    if s = 0 then [(1, 10, 0)] else if s = 1 then [(2, 20, 0)] else []

/-- Pacman at the origin with one food pellet at distance 10 and a ghost at
Manhattan distance exactly 1 (adjacent). -/
def adjacentGhostState : PacState where
  pacman := (0, 0)
  food := [(5, 5)]
  ghosts := [(0, 1)]
  capsules := []
  score := 0

/-- Pacman at the origin with one food pellet and a ghost on pacman's own
square (Manhattan distance 0). -/
def overlapGhostState : PacState where
  pacman := (0, 0)
  food := [(5, 5)]
  ghosts := [(0, 0)]
  capsules := []
  score := 0

/-- A foodless current state and a successor state, for the reflex
evaluator. -/
def noFoodState : PacState where
  pacman := (0, 0)
  food := []
  ghosts := []
  capsules := []
  score := 3

/-- A successor state as produced by `generatePacmanSuccessor`. -/
def someSuccessorState : PacState where
  pacman := (1, 0)
  food := []
  ghosts := [(5, 5)]
  capsules := []
  score := 3

/-! ## Lemmas and theorems -/

section FoldLemmas

variable {α : Type} [LinearOrder α]

theorem init_le_foldl_max (xs : List α) (x : α) : x ≤ xs.foldl max x := by
  induction xs generalizing x with
  | nil => exact le_refl x
  | cons y ys ih => exact le_trans (le_max_left x y) (ih (max x y))

theorem mem_le_foldl_max (xs : List α) (x y : α) (h : y ∈ xs) : y ≤ xs.foldl max x := by
  induction xs generalizing x with
  | nil => cases h
  | cons z zs ih =>
    rcases List.mem_cons.mp h with h1 | h1
    · subst h1
      exact le_trans (le_max_right x y) (init_le_foldl_max zs (max x y))
    · exact ih (max x z) h1

theorem foldl_max_mem (xs : List α) (x : α) : xs.foldl max x ∈ x :: xs := by
  induction xs generalizing x with
  | nil => simp
  | cons y ys ih =>
    have h := ih (max x y)
    rcases List.mem_cons.mp h with h1 | h1
    · rcases max_choice x y with hm | hm <;> rw [List.foldl_cons, h1, hm] <;> simp
    · simp only [List.foldl_cons, List.mem_cons]
      right; right; exact h1

theorem foldl_min_le_init (xs : List α) (x : α) : xs.foldl min x ≤ x := by
  induction xs generalizing x with
  | nil => exact le_refl x
  | cons y ys ih => exact le_trans (ih (min x y)) (min_le_left x y)

theorem foldl_min_le_mem (xs : List α) (x y : α) (h : y ∈ xs) : xs.foldl min x ≤ y := by
  induction xs generalizing x with
  | nil => cases h
  | cons z zs ih =>
    rcases List.mem_cons.mp h with h1 | h1
    · subst h1
      exact le_trans (foldl_min_le_init zs (min x y)) (min_le_right x y)
    · exact ih (min x z) h1

theorem foldl_min_mem (xs : List α) (x : α) : xs.foldl min x ∈ x :: xs := by
  induction xs generalizing x with
  | nil => simp
  | cons y ys ih =>
    have h := ih (min x y)
    rcases List.mem_cons.mp h with h1 | h1
    · rcases min_choice x y with hm | hm <;> rw [List.foldl_cons, h1, hm] <;> simp
    · simp only [List.foldl_cons, List.mem_cons]
      right; right; exact h1

end FoldLemmas

theorem pyMax_mem (l : List ℚ) (h : l ≠ []) : pyMax l ∈ l := by
  cases l with
  | nil => exact absurd rfl h
  | cons x xs => exact foldl_max_mem xs x

theorem le_pyMax (l : List ℚ) (y : ℚ) (h : y ∈ l) : y ≤ pyMax l := by
  cases l with
  | nil => cases h
  | cons x xs =>
    rcases List.mem_cons.mp h with h1 | h1
    · subst h1; exact init_le_foldl_max xs y
    · exact mem_le_foldl_max xs x y h1

theorem pyMin_mem (l : List ℤ) (h : l ≠ []) : pyMin l ∈ l := by
  cases l with
  | nil => exact absurd rfl h
  | cons x xs => exact foldl_min_mem xs x

theorem pyMin_le (l : List ℤ) (y : ℤ) (h : y ∈ l) : pyMin l ≤ y := by
  cases l with
  | nil => cases h
  | cons x xs =>
    rcases List.mem_cons.mp h with h1 | h1
    · subst h1; exact foldl_min_le_init xs y
    · exact foldl_min_le_mem xs x y h1

theorem ghostOverride_neg (t : ℤ) (ds : List ℤ) :
    ghostOverride t ds (-999999) = -999999 := by
  induction ds with
  | nil => rfl
  | cons d ds ih =>
    simp only [ghostOverride, List.foldl_cons] at ih ⊢
    rcases ite_eq_or_eq (d < t) (-999999 : ℤ) (-999999 : ℤ) with h | h <;> rw [h] <;> exact ih

theorem ghostOverride_of_forall (t : ℤ) (ds : List ℤ) (e : ℤ)
    (h : ∀ d ∈ ds, ¬ d < t) : ghostOverride t ds e = e := by
  induction ds with
  | nil => rfl
  | cons d ds ih =>
    simp only [ghostOverride, List.foldl_cons] at ih ⊢
    rw [if_neg (h d (List.mem_cons_self d ds))]
    exact ih (fun x hx => h x (List.mem_cons_of_mem d hx))

theorem ghostOverride_of_exists (t : ℤ) (ds : List ℤ) (e : ℤ)
    (h : ∃ d ∈ ds, d < t) : ghostOverride t ds e = -999999 := by
  induction ds with
  | nil => obtain ⟨d, hd, _⟩ := h; cases hd
  | cons d ds ih =>
    simp only [ghostOverride, List.foldl_cons] at ih ⊢
    by_cases hd : d < t
    · rw [if_pos hd]
      exact ghostOverride_neg t ds
    · obtain ⟨d2, hmem, hlt⟩ := h
      rcases List.mem_cons.mp hmem with h1 | h1
      · subst h1; exact absurd hlt hd
      · rw [if_neg hd]
        exact ih ⟨d2, h1, hlt⟩

/-- Unfolding equation for `expValue` at positive fuel, phrased with the
named `branches` and `expChildren`. -/
theorem expValue_succ (g : Game S A) (fuel : Nat) (s : S) (agent depth : Nat) :
    expValue g (fuel + 1) s agent depth =
      if depth = g.treeDepth ∨ branches g agent s = [] then g.eval s
      else if agent = 0 then pyMax (expChildren g fuel s agent depth)
      else (expChildren g fuel s agent depth).sum / ((branches g agent s).length : ℚ) := by
  simp only [expValue, expChildren]

/-- C7: invoking any of the unimplemented graph-search strategies
(`depthFirstSearch`, `uniformCostSearch`, `aStarSearch`) on any problem
(and heuristic, where applicable) fails immediately with the distinct
"not implemented" fault and never returns a value. -/
theorem claim7_unimplemented_strategies_fault {S A : Type} (p : SearchProblem S A)
    (h : S → ℚ) :
    depthFirstSearch p = .error .notImplemented ∧
    uniformCostSearch p = .error .notImplemented ∧
    aStarSearch p h = .error .notImplemented ∧
    ∀ r : Option (List A),
      depthFirstSearch p ≠ .ok r ∧ uniformCostSearch p ≠ .ok r ∧ aStarSearch p h ≠ .ok r := by
  refine ⟨rfl, rfl, rfl, fun r => ⟨?_, ?_, ?_⟩⟩ <;> intro hc <;> cases hc

/-- C6: in every recursive call of the adversarial engines the branch list
iterated over is `branches` (the legal actions with the no-op erased), and
the no-op action is never in it, provided the no-op occurs at most once in
the legal-action list (legal-action lists enumerate distinct moves; Python
`list.remove` only deletes the first occurrence). -/
theorem claim6_stop_never_expanded {S A : Type} [DecidableEq A] (g : Game S A)
    (agent : Nat) (s : S) (hcount : (g.legal agent s).count g.stop ≤ 1) :
    g.stop ∉ branches g agent s := by
  simp only [branches]
  by_cases hmem : g.stop ∈ g.legal agent s
  · rw [if_pos hmem]
    intro hc
    have h1 : (g.legal agent s).count g.stop = 1 :=
      le_antisymm hcount (List.count_pos_iff.mpr hmem)
    have h2 := List.count_erase_self g.stop (g.legal agent s)
    rw [h1] at h2
    have h3 := List.count_pos_iff.mpr hc
    omega
  · rw [if_neg hmem]
    exact hmem

/-- Witness for C6 at a concrete game state whose legal actions contain the
no-op exactly once. -/
theorem claim6_witness :
    (stopOnlyGame.legal 0 0).count stopOnlyGame.stop ≤ 1 ∧
    stopOnlyGame.stop ∉ branches stopOnlyGame 0 0 :=
  ⟨by decide, claim6_stop_never_expanded stopOnlyGame 0 0 (by decide)⟩

/-- C9: when the current state has no remaining food, the reflex evaluator
does not return a score: it indexes the head of an empty sorted
food-distance list (modelled by `none`, the Python `IndexError`), while
`betterEvaluationFunction` guards this case and returns the raw score. -/
theorem claim9_reflex_no_food_error (current successor : PacState)
    (h : current.food = []) :
    reflexEvaluationFunction current successor = none ∧
    ∀ s2 : PacState, s2.food = [] → betterEvaluationFunction s2 = s2.score := by
  constructor
  · simp [reflexEvaluationFunction, h]
  · intro s2 h2
    simp [betterEvaluationFunction, h2]

/-- Witness for C9 at a concrete foodless state. -/
theorem claim9_witness :
    noFoodState.food = [] ∧
    reflexEvaluationFunction noFoodState someSuccessorState = none ∧
    betterEvaluationFunction noFoodState = noFoodState.score :=
  ⟨rfl, (claim9_reflex_no_food_error noFoodState someSuccessorState rfl).1,
    (claim9_reflex_no_food_error noFoodState someSuccessorState rfl).2 noFoodState rfl⟩

/-- C10: in `expectimaxValue` the division is reached only behind the guard
that the filtered legal-action list is non-empty, the divisor (its length)
is then positive, and the number of collected branch values equals that
divisor. -/
theorem claim10_exp_divisor {S A : Type} [DecidableEq A] (g : Game S A)
    (fuel : Nat) (s : S) (agent depth : Nat)
    (hd : depth ≠ g.treeDepth) (hb : branches g agent s ≠ []) :
    0 < (branches g agent s).length ∧
    (expChildren g fuel s agent depth).length = (branches g agent s).length ∧
    (agent ≠ 0 → expValue g (fuel + 1) s agent depth =
      (expChildren g fuel s agent depth).sum / ((branches g agent s).length : ℚ)) := by
  refine ⟨List.length_pos.mpr hb, List.length_map _ _, fun ha => ?_⟩
  rw [expValue_succ]
  rw [if_neg (by simp [hd, hb]), if_neg ha]

/-- Witness for C10 at a ghost node of the concrete 2-ply game. -/
theorem claim10_witness :
    0 < (branches prunableGame 1 1).length ∧
    (expChildren prunableGame 3 1 1 0).length = (branches prunableGame 1 1).length ∧
    expValue prunableGame 4 1 1 0 =
      (expChildren prunableGame 3 1 1 0).sum / ((branches prunableGame 1 1).length : ℚ) :=
  ⟨(claim10_exp_divisor prunableGame 3 1 1 0 (by decide) (by decide)).1,
    (claim10_exp_divisor prunableGame 3 1 1 0 (by decide) (by decide)).2.1,
    (claim10_exp_divisor prunableGame 3 1 1 0 (by decide) (by decide)).2.2 (by decide)⟩

/-- C8: at every non-leaf `expectimaxValue` node of an agent other than 0
the returned value is the arithmetic mean of all collected branch values,
and at every non-leaf agent-0 node it is their maximum (an element of the
branch values bounding them all from above). -/
theorem claim8_expectimax_mean_max {S A : Type} [DecidableEq A] (g : Game S A)
    (fuel : Nat) (s : S) (agent depth : Nat)
    (hd : depth ≠ g.treeDepth) (hb : branches g agent s ≠ []) :
    (agent ≠ 0 → expValue g (fuel + 1) s agent depth =
      arithMean (expChildren g fuel s agent depth)) ∧
    (agent = 0 →
      expValue g (fuel + 1) s agent depth ∈ expChildren g fuel s agent depth ∧
      ∀ v ∈ expChildren g fuel s agent depth, v ≤ expValue g (fuel + 1) s agent depth) := by
  have hlen : (expChildren g fuel s agent depth).length = (branches g agent s).length :=
    List.length_map _ _
  have hne : expChildren g fuel s agent depth ≠ [] := by
    intro hc
    rw [← List.length_eq_zero] at hc
    rw [hlen] at hc
    exact hb (List.length_eq_zero.mp hc)
  constructor
  · intro ha
    rw [expValue_succ, if_neg (by simp [hd, hb]), if_neg ha, arithMean, hlen]
  · intro ha
    rw [expValue_succ, if_neg (by simp [hd, hb]), if_pos ha]
    exact ⟨pyMax_mem _ hne, fun v hv => le_pyMax _ v hv⟩

/-- Witness for C8: a concrete ghost node averages its branch values and a
concrete root node maximizes them. -/
theorem claim8_witness :
    expValue prunableGame 4 1 1 0 = arithMean (expChildren prunableGame 3 1 1 0) ∧
    expValue prunableGame 4 0 0 0 ∈ expChildren prunableGame 3 0 0 0 :=
  ⟨(claim8_expectimax_mean_max prunableGame 3 1 1 0 (by decide) (by decide)).1 (by decide),
    ((claim8_expectimax_mean_max prunableGame 3 0 0 0 (by decide) (by decide)).2 rfl).1⟩

/-- C4: on the concrete 2-ply, branching-factor-2 game whose second root
branch is dominated, alpha-beta invokes the evaluation function 3 times
against plain minimax's 4 — strictly fewer, the pruned leaf never being
evaluated — while returning the same root value and action. -/
theorem claim4_pruning_strictly_fewer_evals :
    (abMaxC prunableGame 5 0 0 0 ⊥ ⊤).2 = 3 ∧
    mmMaxCount prunableGame 5 0 0 0 = 4 ∧
    (abMaxC prunableGame 5 0 0 0 ⊥ ⊤).2 < mmMaxCount prunableGame 5 0 0 0 ∧
    (abMaxC prunableGame 5 0 0 0 ⊥ ⊤).1 = mmMax prunableGame 5 0 0 0 := by
  refine ⟨by decide, by decide, by decide, by decide⟩

/-- C2 counterexample: at a game state whose only legal action is the
no-op, the filtered root action list is empty and the minimax and
alpha-beta `getAction` return `None`, not the no-op action as the claim
states. -/
theorem claim2_counterexample :
    branches stopOnlyGame 0 0 = [] ∧
    mmGetAction stopOnlyGame 3 0 = none ∧
    abGetAction stopOnlyGame 3 0 = none ∧
    mmGetAction stopOnlyGame 3 0 ≠ some stopOnlyGame.stop := by
  refine ⟨by decide, by decide, by decide, by decide⟩

/-- C2 amended: when agent 0 has no legal actions after no-op filtering,
`ExpectimaxAgent.getAction` returns the no-op action, while
`MinimaxAgent.getAction` and `AlphaBetaAgent.getAction` return `None` (the
action component of the leaf return of their root `maxValue`). -/
theorem claim2_no_legal_actions {S A : Type} [DecidableEq A] (g : Game S A)
    (fuel : Nat) (s : S) (h : branches g 0 s = []) :
    mmGetAction g fuel s = none ∧ abGetAction g fuel s = none ∧
    expGetAction g fuel s = some g.stop := by
  refine ⟨?_, ?_, ?_⟩
  · cases fuel with
    | zero => rfl
    | succ n => simp [mmGetAction, mmMax, h]
  · cases fuel with
    | zero => rfl
    | succ n => simp [abGetAction, abMax, h]
  · simp [expGetAction, h]

/-- Witness for C2 (amended) at the concrete no-op-only game. -/
theorem claim2_witness :
    branches stopOnlyGame 0 0 = [] ∧
    mmGetAction stopOnlyGame 3 0 = none ∧ abGetAction stopOnlyGame 3 0 = none ∧
    expGetAction stopOnlyGame 3 0 = some stopOnlyGame.stop :=
  ⟨by decide, (claim2_no_legal_actions stopOnlyGame 3 0 (by decide)).1,
    (claim2_no_legal_actions stopOnlyGame 3 0 (by decide)).2.1,
    (claim2_no_legal_actions stopOnlyGame 3 0 (by decide)).2.2⟩

/-- C1 counterexample: with food remaining and a single ghost at Manhattan
distance exactly 1 (adjacent), `betterEvaluationFunction` does not return
`score + (-999999)`: the sentinel threshold is `< 1`, so an adjacent ghost
does not trigger it and the closest-objective term survives. -/
theorem claim1_counterexample :
    adjacentGhostState.food ≠ [] ∧
    (∃ gh ∈ adjacentGhostState.ghosts, manhattan adjacentGhostState.pacman gh = 1) ∧
    betterEvaluationFunction adjacentGhostState = -10 ∧
    betterEvaluationFunction adjacentGhostState ≠
      adjacentGhostState.score + (-999999) := by
  have hval : betterEvaluationFunction adjacentGhostState = -10 := by
    simp [betterEvaluationFunction, adjacentGhostState, manhattan, pyMin, ghostOverride]
  refine ⟨by decide, by decide, hval, ?_⟩
  rw [hval]
  norm_num [adjacentGhostState]

/-- C1 amended: the sentinel fires exactly on the source's `< 1` test, i.e.
when some ghost is at Manhattan distance 0 (on pacman's square), not at
distance 1.  Then, with food remaining, `evaluate` returns
`score + (-999999)`, strictly less than its value on any state of equal raw
score whose ghosts are all at distance at least 1 and whose food and
capsule distances are below 999999. -/
theorem claim1_overlap_ghost_sentinel (s s2 : PacState)
    (hf : s.food ≠ [])
    (hg : ∃ gh ∈ s.ghosts, manhattan s.pacman gh < 1)
    (hg2 : ∀ gh ∈ s2.ghosts, 1 ≤ manhattan s2.pacman gh)
    (hsc : s2.score = s.score)
    (hcap : ∀ c ∈ s2.capsules, manhattan s2.pacman c < 999999)
    (hfood : ∀ f ∈ s2.food, manhattan s2.pacman f < 999999) :
    betterEvaluationFunction s = s.score + (-999999) ∧
    betterEvaluationFunction s < betterEvaluationFunction s2 := by
  have h1 : betterEvaluationFunction s = s.score + (-999999) := by
    obtain ⟨gh, hmem, hlt⟩ := hg
    have hex : ∃ d ∈ s.ghosts.map (fun x => manhattan s.pacman x), d < 1 :=
      ⟨manhattan s.pacman gh, List.mem_map_of_mem _ hmem, hlt⟩
    simp only [betterEvaluationFunction, if_neg hf]
    rw [ghostOverride_of_exists 1 _ _ hex]
    norm_num
  refine ⟨h1, ?_⟩
  rw [h1]
  by_cases h2 : s2.food = []
  · rw [(claim9_reflex_no_food_error s2 s2 h2).2 s2 h2] at *
    rw [hsc]
    linarith
  · have hforall : ∀ d ∈ s2.ghosts.map (fun x => manhattan s2.pacman x), ¬ d < 1 := by
      intro d hd
      obtain ⟨gh, hgh, rfl⟩ := List.mem_map.mp hd
      exact not_lt.mpr (hg2 gh hgh)
    simp only [betterEvaluationFunction, if_neg h2]
    rw [ghostOverride_of_forall 1 _ _ hforall, hsc]
    have hmin : pyMin (if s2.capsules.map (fun c => manhattan s2.pacman c) ≠ []
        then s2.capsules.map (fun c => manhattan s2.pacman c)
        else s2.food.map (fun f => manhattan s2.pacman f)) < 999999 := by
      by_cases hc : s2.capsules.map (fun c => manhattan s2.pacman c) = []
      · rw [if_neg (by simp [hc])]
        have hne : s2.food.map (fun f => manhattan s2.pacman f) ≠ [] := by
          simpa using h2
        obtain ⟨f, hfmem, hfeq⟩ := List.mem_map.mp (pyMin_mem _ hne)
        rw [← hfeq]
        exact hfood f hfmem
      · rw [if_pos hc]
        obtain ⟨c, hcmem, hceq⟩ := List.mem_map.mp (pyMin_mem _ hc)
        rw [← hceq]
        exact hcap c hcmem
    have hcast : ((- pyMin (if s2.capsules.map (fun c => manhattan s2.pacman c) ≠ []
        then s2.capsules.map (fun c => manhattan s2.pacman c)
        else s2.food.map (fun f => manhattan s2.pacman f)) : ℤ) : ℚ) > -999999 := by
      have := hmin
      push_cast
      exact_mod_cast (by linarith : (-999999 : ℤ) <
        - pyMin (if s2.capsules.map (fun c => manhattan s2.pacman c) ≠ []
          then s2.capsules.map (fun c => manhattan s2.pacman c)
          else s2.food.map (fun f => manhattan s2.pacman f)))
    linarith

/-! ### Order lemmas about the extended value type -/

theorem toEV_le_toEV {a b : ℚ} : toEV a ≤ toEV b ↔ a ≤ b := by
  simp [toEV]

theorem toEV_lt_toEV {a b : ℚ} : toEV a < toEV b ↔ a < b := by
  simp [toEV]

theorem bot_lt_toEV (a : ℚ) : (⊥ : EV) < toEV a :=
  WithBot.bot_lt_coe _

theorem toEV_lt_top (a : ℚ) : toEV a < (⊤ : EV) := by
  simp only [toEV]
  exact WithBot.coe_lt_coe.mpr (WithTop.coe_lt_top a)

theorem bot_lt_top_EV : (⊥ : EV) < (⊤ : EV) :=
  lt_trans (bot_lt_toEV 0) (toEV_lt_top 0)

/-! ### Unfolding equations for the engines at positive fuel -/

theorem mmMax_succ (g : Game S A) (fuel : Nat) (s : S) (agent depth : Nat) :
    mmMax g (fuel + 1) s agent depth =
      if depth = g.treeDepth ∨ branches g agent s = [] then (g.eval s, none)
      else finishMM g s ((branches g agent s).foldl
        (mmStepMax (mmChild g fuel s agent depth)) none) := rfl

theorem mmMin_succ (g : Game S A) (fuel : Nat) (s : S) (agent depth : Nat) :
    mmMin g (fuel + 1) s agent depth =
      if depth = g.treeDepth ∨ branches g agent s = [] then (g.eval s, none)
      else finishMM g s ((branches g agent s).foldl
        (mmStepMin (mmChild g fuel s agent depth)) none) := rfl

theorem abMax_succ (g : Game S A) (fuel : Nat) (s : S) (agent depth : Nat) (α β : EV) :
    abMax g (fuel + 1) s agent depth α β =
      if depth = g.treeDepth ∨ branches g agent s = [] then (g.eval s, none)
      else finishAB g s ((branches g agent s).foldl
        (abStepMax β (fun a α2 => abChild g fuel s agent depth α2 β a))
        (.running none α)) := rfl

theorem abMin_succ (g : Game S A) (fuel : Nat) (s : S) (agent depth : Nat) (α β : EV) :
    abMin g (fuel + 1) s agent depth α β =
      if depth = g.treeDepth ∨ branches g agent s = [] then (g.eval s, none)
      else finishAB g s ((branches g agent s).foldl
        (abStepMin α (fun a β2 => abChild g fuel s agent depth α β2 a))
        (.running none β)) := rfl

/-! ### Behaviour of the loop folds -/

theorem abStepMax_done_foldl (β : EV) (f : A → EV → ℚ) (v : ℚ) (a : A) (l : List A) :
    l.foldl (abStepMax β f) (.done v a) = .done v a := by
  induction l with
  | nil => rfl
  | cons x xs ih => simpa [abStepMax] using ih

theorem abStepMin_done_foldl (α : EV) (f : A → EV → ℚ) (v : ℚ) (a : A) (l : List A) :
    l.foldl (abStepMin α f) (.done v a) = .done v a := by
  induction l with
  | nil => rfl
  | cons x xs ih => simpa [abStepMin] using ih

theorem mmFoldMax_go (f : A → ℚ) (rest : List A) :
    ∀ (bv : ℚ) (ba : A), ∃ bv2 ba2,
      rest.foldl (mmStepMax f) (some (bv, ba)) = some (bv2, ba2) ∧
      bv2 = (rest.map f).foldl max bv := by
  induction rest with
  | nil => exact fun bv ba => ⟨bv, ba, rfl, rfl⟩
  | cons a rest ih =>
    intro bv ba
    simp only [List.foldl_cons, List.map_cons, mmStepMax]
    by_cases h : bv < f a
    · obtain ⟨bv2, ba2, heq, hval⟩ := ih (f a) a
      exact ⟨bv2, ba2, by rw [if_pos h]; exact heq,
        by rw [hval, max_eq_right (le_of_lt h)]⟩
    · obtain ⟨bv2, ba2, heq, hval⟩ := ih bv ba
      exact ⟨bv2, ba2, by rw [if_neg h]; exact heq,
        by rw [hval, max_eq_left (not_lt.mp h)]⟩

theorem mmFoldMin_go (f : A → ℚ) (rest : List A) :
    ∀ (bv : ℚ) (ba : A), ∃ bv2 ba2,
      rest.foldl (mmStepMin f) (some (bv, ba)) = some (bv2, ba2) ∧
      bv2 = (rest.map f).foldl min bv := by
  induction rest with
  | nil => exact fun bv ba => ⟨bv, ba, rfl, rfl⟩
  | cons a rest ih =>
    intro bv ba
    simp only [List.foldl_cons, List.map_cons, mmStepMin]
    by_cases h : f a < bv
    · obtain ⟨bv2, ba2, heq, hval⟩ := ih (f a) a
      exact ⟨bv2, ba2, by rw [if_pos h]; exact heq,
        by rw [hval, min_eq_right (le_of_lt h)]⟩
    · obtain ⟨bv2, ba2, heq, hval⟩ := ih bv ba
      exact ⟨bv2, ba2, by rw [if_neg h]; exact heq,
        by rw [hval, min_eq_left (not_lt.mp h)]⟩

/-- The value component of a non-leaf `MinimaxAgent.maxValue` node is the
maximum of its children's values. -/
theorem mmMax_val (g : Game S A) (fuel : Nat) (s : S) (agent depth : Nat)
    (hleaf : ¬ (depth = g.treeDepth ∨ branches g agent s = [])) :
    (mmMax g (fuel + 1) s agent depth).1 =
      pyMax ((branches g agent s).map (mmChild g fuel s agent depth)) := by
  rw [mmMax_succ, if_neg hleaf]
  cases hacts : branches g agent s with
  | nil => exact absurd (Or.inr hacts) hleaf
  | cons a rest =>
    simp only [List.foldl_cons, mmStepMax]
    obtain ⟨bv2, ba2, heq, hval⟩ := mmFoldMax_go (mmChild g fuel s agent depth) rest
      (mmChild g fuel s agent depth a) a
    rw [heq]
    simp [finishMM, hval, pyMax]

/-- The value component of a non-leaf `MinimaxAgent.minValue` node is the
minimum of its children's values. -/
theorem mmMin_val (g : Game S A) (fuel : Nat) (s : S) (agent depth : Nat)
    (hleaf : ¬ (depth = g.treeDepth ∨ branches g agent s = [])) :
    (mmMin g (fuel + 1) s agent depth).1 =
      pyMinQ ((branches g agent s).map (mmChild g fuel s agent depth)) := by
  rw [mmMin_succ, if_neg hleaf]
  cases hacts : branches g agent s with
  | nil => exact absurd (Or.inr hacts) hleaf
  | cons a rest =>
    simp only [List.foldl_cons, mmStepMin]
    obtain ⟨bv2, ba2, heq, hval⟩ := mmFoldMin_go (mmChild g fuel s agent depth) rest
      (mmChild g fuel s agent depth a) a
    rw [heq]
    simp [finishMM, hval, pyMinQ]

theorem abStepMax_running_some (β : EV) (fab : A → EV → ℚ) (bv : ℚ) (ba : A)
    (α2 : EV) (a : A) :
    abStepMax β fab (.running (some (bv, ba)) α2) a =
      if β ≤ toEV (fab a α2) then .done (fab a α2) a
      else if bv < fab a α2 then
        .running (some (fab a α2, a)) (max α2 (toEV (fab a α2)))
      else .running (some (bv, ba)) α2 := by
  simp only [abStepMax]
  by_cases h1 : β ≤ toEV (fab a α2) <;> by_cases h2 : bv < fab a α2 <;> simp [h1, h2]

theorem abStepMax_running_none (β : EV) (fab : A → EV → ℚ) (α2 : EV) (a : A) :
    abStepMax β fab (.running none α2) a =
      if β ≤ toEV (fab a α2) then .done (fab a α2) a
      else .running (some (fab a α2, a)) (max α2 (toEV (fab a α2))) := by
  simp only [abStepMax]

theorem abStepMin_running_some (α : EV) (fab : A → EV → ℚ) (bv : ℚ) (ba : A)
    (β2 : EV) (a : A) :
    abStepMin α fab (.running (some (bv, ba)) β2) a =
      if toEV (fab a β2) ≤ α then .done (fab a β2) a
      else if fab a β2 < bv then
        .running (some (fab a β2, a)) (min β2 (toEV (fab a β2)))
      else .running (some (bv, ba)) β2 := by
  simp only [abStepMin]
  by_cases h1 : toEV (fab a β2) ≤ α <;> by_cases h2 : fab a β2 < bv <;> simp [h1, h2]

theorem abStepMin_running_none (α : EV) (fab : A → EV → ℚ) (β2 : EV) (a : A) :
    abStepMin α fab (.running none β2) a =
      if toEV (fab a β2) ≤ α then .done (fab a β2) a
      else .running (some (fab a β2, a)) (min β2 (toEV (fab a β2))) := by
  simp only [abStepMin]

/-- Invariant walk over the remaining branches of an alpha-beta maximizing
node: either a cutoff fires on a branch whose value fail-highs its window,
or the loop ends with a best value that relates to the running maximum `pm`
of the true child values exactly as the Knuth-Moore relation demands. -/
theorem abFoldMax_go (α β : EV) (hαβ : α < β) (fab : A → EV → ℚ) (fmm : A → ℚ)
    (rest : List A) :
    ∀ (bv pm : ℚ) (ba : A),
      (∀ a ∈ rest, ∀ γ : EV, γ < β → KM γ β (fab a γ) (fmm a)) →
      toEV bv < β →
      (toEV bv ≤ α → pm ≤ bv) →
      (α < toEV bv → bv = pm) →
      (∃ v a2, a2 ∈ rest ∧
        rest.foldl (abStepMax β fab) (.running (some (bv, ba)) (max α (toEV bv)))
          = .done v a2 ∧ β ≤ toEV v ∧ v ≤ fmm a2) ∨
      (∃ bv2 ba2,
        rest.foldl (abStepMax β fab) (.running (some (bv, ba)) (max α (toEV bv)))
          = .running (some (bv2, ba2)) (max α (toEV bv2)) ∧
        toEV bv2 < β ∧
        (toEV bv2 ≤ α → (rest.map fmm).foldl max pm ≤ bv2) ∧
        (α < toEV bv2 → bv2 = (rest.map fmm).foldl max pm)) := by
  induction rest with
  | nil =>
    intro bv pm ba _ hb hpm1 hpm2
    exact Or.inr ⟨bv, ba, rfl, hb, hpm1, hpm2⟩
  | cons a rest ih =>
    intro bv pm ba hchild hb hpm1 hpm2
    have hγβ : max α (toEV bv) < β := max_lt hαβ hb
    obtain ⟨K1, K2, K3⟩ := hchild a (List.mem_cons_self a rest) (max α (toEV bv)) hγβ
    set v := fab a (max α (toEV bv)) with hv
    rw [List.foldl_cons, abStepMax_running_some]
    by_cases hcut : β ≤ toEV v
    · rw [if_pos hcut, abStepMax_done_foldl]
      exact Or.inl ⟨v, a, List.mem_cons_self a rest, rfl, hcut, K2 hcut⟩
    · rw [if_neg hcut]
      have hvβ : toEV v < β := not_le.mp hcut
      have hrest : ∀ x ∈ rest, ∀ γ : EV, γ < β → KM γ β (fab x γ) (fmm x) :=
        fun x hx => hchild x (List.mem_cons_of_mem a hx)
      by_cases hup : bv < v
      · have htvv : toEV bv < toEV v := toEV_lt_toEV.mpr hup
        have hmax : max (max α (toEV bv)) (toEV v) = max α (toEV v) := by
          rw [max_assoc, max_eq_right (le_of_lt htvv)]
        rw [if_pos hup, hmax]
        have hpm1' : toEV v ≤ α → max pm (fmm a) ≤ v := by
          intro hvα
          have hbvα : toEV bv ≤ α := le_of_lt (lt_of_lt_of_le htvv hvα)
          have h1 : pm ≤ v := le_trans (hpm1 hbvα) (le_of_lt hup)
          have h2 : fmm a ≤ v := K1 (le_trans hvα (le_max_left _ _))
          exact max_le h1 h2
        have hpm2' : α < toEV v → v = max pm (fmm a) := by
          intro hαv
          have hγv : max α (toEV bv) < toEV v := max_lt hαv htvv
          have hva : v = fmm a := K3 hγv hvβ
          have hpmv : pm ≤ v := by
            by_cases hbvα : toEV bv ≤ α
            · exact le_trans (hpm1 hbvα) (le_of_lt hup)
            · rw [← hpm2 (not_le.mp hbvα)]
              exact le_of_lt hup
          rw [← hva, max_eq_right hpmv]
        rcases ih v (max pm (fmm a)) a hrest hvβ hpm1' hpm2' with
          ⟨w, a2, hmem, heq, hwβ, hwf⟩ | ⟨bv2, ba2, heq, hb2, hq1, hq2⟩
        · exact Or.inl ⟨w, a2, List.mem_cons_of_mem a hmem, heq, hwβ, hwf⟩
        · refine Or.inr ⟨bv2, ba2, heq, hb2, ?_, ?_⟩ <;>
            simpa [List.foldl_cons] using ‹_›
      · rw [if_neg hup]
        have hvle : v ≤ bv := not_lt.mp hup
        have hfa_le : fmm a ≤ bv := by
          by_cases hle : toEV v ≤ max α (toEV bv)
          · exact le_trans (K1 hle) hvle
          · rw [← K3 (not_le.mp hle) hvβ]
            exact hvle
        have hpm1' : toEV bv ≤ α → max pm (fmm a) ≤ bv := by
          intro hbvα
          exact max_le (hpm1 hbvα) hfa_le
        have hpm2' : α < toEV bv → bv = max pm (fmm a) := by
          intro hαbv
          have hbp := hpm2 hαbv
          rw [max_eq_left (hbp ▸ hfa_le)]
          exact hbp
        rcases ih bv (max pm (fmm a)) ba hrest hb hpm1' hpm2' with
          ⟨w, a2, hmem, heq, hwβ, hwf⟩ | ⟨bv2, ba2, heq, hb2, hq1, hq2⟩
        · exact Or.inl ⟨w, a2, List.mem_cons_of_mem a hmem, heq, hwβ, hwf⟩
        · refine Or.inr ⟨bv2, ba2, heq, hb2, ?_, ?_⟩ <;>
            simpa [List.foldl_cons] using ‹_›

/-- Invariant walk over the remaining branches of an alpha-beta minimizing
node, dual to `abFoldMax_go`. -/
theorem abFoldMin_go (α β : EV) (hαβ : α < β) (fab : A → EV → ℚ) (fmm : A → ℚ)
    (rest : List A) :
    ∀ (bv pm : ℚ) (ba : A),
      (∀ a ∈ rest, ∀ γ : EV, α < γ → KM α γ (fab a γ) (fmm a)) →
      α < toEV bv →
      (β ≤ toEV bv → bv ≤ pm) →
      (toEV bv < β → bv = pm) →
      (∃ v a2, a2 ∈ rest ∧
        rest.foldl (abStepMin α fab) (.running (some (bv, ba)) (min β (toEV bv)))
          = .done v a2 ∧ toEV v ≤ α ∧ fmm a2 ≤ v) ∨
      (∃ bv2 ba2,
        rest.foldl (abStepMin α fab) (.running (some (bv, ba)) (min β (toEV bv)))
          = .running (some (bv2, ba2)) (min β (toEV bv2)) ∧
        α < toEV bv2 ∧
        (β ≤ toEV bv2 → bv2 ≤ (rest.map fmm).foldl min pm) ∧
        (toEV bv2 < β → bv2 = (rest.map fmm).foldl min pm)) := by
  induction rest with
  | nil =>
    intro bv pm ba _ hb hpm1 hpm2
    exact Or.inr ⟨bv, ba, rfl, hb, hpm1, hpm2⟩
  | cons a rest ih =>
    intro bv pm ba hchild hb hpm1 hpm2
    have hαγ : α < min β (toEV bv) := lt_min hαβ hb
    obtain ⟨K1, K2, K3⟩ := hchild a (List.mem_cons_self a rest) (min β (toEV bv)) hαγ
    set v := fab a (min β (toEV bv)) with hv
    rw [List.foldl_cons, abStepMin_running_some]
    by_cases hcut : toEV v ≤ α
    · rw [if_pos hcut, abStepMin_done_foldl]
      exact Or.inl ⟨v, a, List.mem_cons_self a rest, rfl, hcut, K1 hcut⟩
    · rw [if_neg hcut]
      have hαv : α < toEV v := not_le.mp hcut
      have hrest : ∀ x ∈ rest, ∀ γ : EV, α < γ → KM α γ (fab x γ) (fmm x) :=
        fun x hx => hchild x (List.mem_cons_of_mem a hx)
      by_cases hup : v < bv
      · have htvv : toEV v < toEV bv := toEV_lt_toEV.mpr hup
        have hmin : min (min β (toEV bv)) (toEV v) = min β (toEV v) := by
          rw [min_assoc, min_eq_right (le_of_lt htvv)]
        rw [if_pos hup, hmin]
        have hpm1' : β ≤ toEV v → v ≤ min pm (fmm a) := by
          intro hβv
          have hβbv : β ≤ toEV bv := le_of_lt (lt_of_le_of_lt hβv htvv)
          have h1 : v ≤ pm := le_trans (le_of_lt hup) (hpm1 hβbv)
          have h2 : v ≤ fmm a := K2 (le_trans (min_le_left _ _) hβv)
          exact le_min h1 h2
        have hpm2' : toEV v < β → v = min pm (fmm a) := by
          intro hvβ
          have hvγ : toEV v < min β (toEV bv) := lt_min hvβ htvv
          have hva : v = fmm a := K3 hαv hvγ
          have hvpm : v ≤ pm := by
            by_cases hβbv : β ≤ toEV bv
            · exact le_trans (le_of_lt hup) (hpm1 hβbv)
            · rw [← hpm2 (not_le.mp hβbv)]
              exact le_of_lt hup
          rw [← hva, min_eq_right hvpm]
        rcases ih v (min pm (fmm a)) a hrest hαv hpm1' hpm2' with
          ⟨w, a2, hmem, heq, hwα, hwf⟩ | ⟨bv2, ba2, heq, hb2, hq1, hq2⟩
        · exact Or.inl ⟨w, a2, List.mem_cons_of_mem a hmem, heq, hwα, hwf⟩
        · refine Or.inr ⟨bv2, ba2, heq, hb2, ?_, ?_⟩ <;>
            simpa [List.foldl_cons] using ‹_›
      · rw [if_neg hup]
        have hvge : bv ≤ v := not_lt.mp hup
        have hfa_ge : bv ≤ fmm a := by
          by_cases hle : min β (toEV bv) ≤ toEV v
          · exact le_trans hvge (K2 hle)
          · rw [← K3 hαv (not_le.mp hle)]
            exact hvge
        have hpm1' : β ≤ toEV bv → bv ≤ min pm (fmm a) := by
          intro hβbv
          exact le_min (hpm1 hβbv) hfa_ge
        have hpm2' : toEV bv < β → bv = min pm (fmm a) := by
          intro hbvβ
          have hbp := hpm2 hbvβ
          rw [min_eq_left (hbp ▸ hfa_ge)]
          exact hbp
        rcases ih bv (min pm (fmm a)) ba hrest hb hpm1' hpm2' with
          ⟨w, a2, hmem, heq, hwα, hwf⟩ | ⟨bv2, ba2, heq, hb2, hq1, hq2⟩
        · exact Or.inl ⟨w, a2, List.mem_cons_of_mem a hmem, heq, hwα, hwf⟩
        · refine Or.inr ⟨bv2, ba2, heq, hb2, ?_, ?_⟩ <;>
            simpa [List.foldl_cons] using ‹_›

theorem KM_refl (α β : EV) (x : ℚ) : KM α β x x :=
  ⟨fun _ => le_refl x, fun _ => le_refl x, fun _ _ => rfl⟩

theorem pyMinQ_le (l : List ℚ) (y : ℚ) (h : y ∈ l) : pyMinQ l ≤ y := by
  cases l with
  | nil => cases h
  | cons x xs =>
    rcases List.mem_cons.mp h with h1 | h1
    · subst h1; exact foldl_min_le_init xs y
    · exact foldl_min_le_mem xs x y h1

/-- A non-leaf alpha-beta maximizing node satisfies the Knuth-Moore
relation against the corresponding minimax node, provided all its children
do at every admissible window. -/
theorem abMax_KM (g : Game S A) (fuel : Nat) (s : S) (agent depth : Nat)
    (α β : EV) (hαβ : α < β)
    (hchild : ∀ a ∈ branches g agent s, ∀ γ : EV, γ < β →
      KM γ β (abChild g fuel s agent depth γ β a) (mmChild g fuel s agent depth a)) :
    KM α β (abMax g (fuel + 1) s agent depth α β).1
      (mmMax g (fuel + 1) s agent depth).1 := by
  by_cases hleaf : depth = g.treeDepth ∨ branches g agent s = []
  · rw [abMax_succ, mmMax_succ, if_pos hleaf, if_pos hleaf]
    exact KM_refl α β _
  · rw [abMax_succ, if_neg hleaf, mmMax_val g fuel s agent depth hleaf]
    cases hacts : branches g agent s with
    | nil => exact absurd (Or.inr hacts) hleaf
    | cons a rest =>
      rw [hacts] at hchild
      obtain ⟨K1, K2, K3⟩ := hchild a (List.mem_cons_self a rest) α hαβ
      rw [List.foldl_cons, abStepMax_running_none]
      by_cases hcut : β ≤ toEV (abChild g fuel s agent depth α β a)
      · rw [if_pos hcut, abStepMax_done_foldl]
        refine ⟨fun h => absurd hαβ (not_lt.mpr (le_trans hcut h)), fun _ => ?_,
          fun _ h3 => absurd h3 (not_lt.mpr hcut)⟩
        exact le_trans (K2 hcut) (le_pyMax _ _
          (List.mem_map_of_mem _ (List.mem_cons_self a rest)))
      · rw [if_neg hcut]
        have hv₁β : toEV (abChild g fuel s agent depth α β a) < β := not_le.mp hcut
        have hrest : ∀ x ∈ rest, ∀ γ : EV, γ < β →
            KM γ β (abChild g fuel s agent depth γ β x) (mmChild g fuel s agent depth x) :=
          fun x hx => hchild x (List.mem_cons_of_mem a hx)
        rcases abFoldMax_go α β hαβ
            (fun x α2 => abChild g fuel s agent depth α2 β x)
            (mmChild g fuel s agent depth) rest
            (abChild g fuel s agent depth α β a) (mmChild g fuel s agent depth a) a
            hrest hv₁β K1 (fun h => K3 h hv₁β) with
          ⟨w, a2, hmem, heq, hwβ, hwf⟩ | ⟨bv2, ba2, heq, hb2, hq1, hq2⟩
        · rw [heq]
          refine ⟨fun h => absurd hαβ (not_lt.mpr (le_trans hwβ h)), fun _ => ?_,
            fun _ h3 => absurd h3 (not_lt.mpr hwβ)⟩
          exact le_trans hwf (le_pyMax _ _
            (List.mem_map_of_mem _ (List.mem_cons_of_mem a hmem)))
        · rw [heq]
          refine ⟨fun h => ?_, fun h => absurd h (not_le.mpr hb2), fun h1 _ => ?_⟩
          · simpa [pyMax] using hq1 h
          · simpa [pyMax] using hq2 h1

/-- A non-leaf alpha-beta minimizing node satisfies the Knuth-Moore
relation against the corresponding minimax node, dual to `abMax_KM`. -/
theorem abMin_KM (g : Game S A) (fuel : Nat) (s : S) (agent depth : Nat)
    (α β : EV) (hαβ : α < β)
    (hchild : ∀ a ∈ branches g agent s, ∀ γ : EV, α < γ →
      KM α γ (abChild g fuel s agent depth α γ a) (mmChild g fuel s agent depth a)) :
    KM α β (abMin g (fuel + 1) s agent depth α β).1
      (mmMin g (fuel + 1) s agent depth).1 := by
  by_cases hleaf : depth = g.treeDepth ∨ branches g agent s = []
  · rw [abMin_succ, mmMin_succ, if_pos hleaf, if_pos hleaf]
    exact KM_refl α β _
  · rw [abMin_succ, if_neg hleaf, mmMin_val g fuel s agent depth hleaf]
    cases hacts : branches g agent s with
    | nil => exact absurd (Or.inr hacts) hleaf
    | cons a rest =>
      rw [hacts] at hchild
      obtain ⟨K1, K2, K3⟩ := hchild a (List.mem_cons_self a rest) β hαβ
      rw [List.foldl_cons, abStepMin_running_none]
      by_cases hcut : toEV (abChild g fuel s agent depth α β a) ≤ α
      · rw [if_pos hcut, abStepMin_done_foldl]
        refine ⟨fun _ => ?_, fun h => absurd hαβ (not_lt.mpr (le_trans h hcut)),
          fun h3 _ => absurd h3 (not_lt.mpr hcut)⟩
        exact le_trans (pyMinQ_le _ _
          (List.mem_map_of_mem _ (List.mem_cons_self a rest))) (K1 hcut)
      · rw [if_neg hcut]
        have hαv₁ : α < toEV (abChild g fuel s agent depth α β a) := not_le.mp hcut
        have hrest : ∀ x ∈ rest, ∀ γ : EV, α < γ →
            KM α γ (abChild g fuel s agent depth α γ x) (mmChild g fuel s agent depth x) :=
          fun x hx => hchild x (List.mem_cons_of_mem a hx)
        rcases abFoldMin_go α β hαβ
            (fun x β2 => abChild g fuel s agent depth α β2 x)
            (mmChild g fuel s agent depth) rest
            (abChild g fuel s agent depth α β a) (mmChild g fuel s agent depth a) a
            hrest hαv₁ K2 (K3 hαv₁) with
          ⟨w, a2, hmem, heq, hwα, hwf⟩ | ⟨bv2, ba2, heq, hb2, hq1, hq2⟩
        · rw [heq]
          refine ⟨fun _ => ?_, fun h => absurd hαβ (not_lt.mpr (le_trans h hwα)),
            fun h3 _ => absurd h3 (not_lt.mpr hwα)⟩
          exact le_trans (pyMinQ_le _ _
            (List.mem_map_of_mem _ (List.mem_cons_of_mem a hmem))) hwf
        · rw [heq]
          refine ⟨fun h => absurd h (not_le.mpr hb2), fun h => ?_, fun _ h2 => ?_⟩
          · simpa [pyMinQ] using hq1 h
          · simpa [pyMinQ] using hq2 h2

/-- The Knuth-Moore relation holds between alpha-beta and minimax at every
node, every window and every fuel, by induction on fuel. -/
theorem km_engines (g : Game S A) (fuel : Nat) :
    ∀ (s : S) (agent depth : Nat) (α β : EV), α < β →
      KM α β (abMax g fuel s agent depth α β).1 (mmMax g fuel s agent depth).1 ∧
      KM α β (abMin g fuel s agent depth α β).1 (mmMin g fuel s agent depth).1 := by
  induction fuel with
  | zero =>
    intro s agent depth α β _
    exact ⟨KM_refl α β _, KM_refl α β _⟩
  | succ fuel ih =>
    intro s agent depth α β hαβ
    constructor
    · refine abMax_KM g fuel s agent depth α β hαβ ?_
      intro a _ γ hγβ
      simp only [abChild, mmChild]
      by_cases hnext : (agent + 1) % g.numAgents = 0
      · rw [if_pos hnext, if_pos hnext]
        exact (ih _ _ _ γ β hγβ).1
      · rw [if_neg hnext, if_neg hnext]
        exact (ih _ _ _ γ β hγβ).2
    · refine abMin_KM g fuel s agent depth α β hαβ ?_
      intro a _ γ hαγ
      simp only [abChild, mmChild]
      by_cases hnext : (agent + 1) % g.numAgents = 0
      · rw [if_pos hnext, if_pos hnext]
        exact (ih _ _ _ α γ hαγ).1
      · rw [if_neg hnext, if_neg hnext]
        exact (ih _ _ _ α γ hαγ).2

/-- The Knuth-Moore relation for a single child dispatch. -/
theorem child_KM (g : Game S A) (fuel : Nat) (s : S) (agent depth : Nat) (a : A)
    (γ β2 : EV) (h : γ < β2) :
    KM γ β2 (abChild g fuel s agent depth γ β2 a) (mmChild g fuel s agent depth a) := by
  simp only [abChild, mmChild]
  by_cases hnext : (agent + 1) % g.numAgents = 0
  · rw [if_pos hnext, if_pos hnext]
    exact (km_engines g fuel _ _ _ γ β2 h).1
  · rw [if_neg hnext, if_neg hnext]
    exact (km_engines g fuel _ _ _ γ β2 h).2

/-- With the full window `(-inf, inf)` the alpha-beta maximizing loop walks
in lockstep with the plain minimax loop: no cutoff can fire, every
improving child is evaluated exactly, and the running best pair coincides. -/
theorem rootFold_go (fab : A → EV → ℚ) (fmm : A → ℚ)
    (hchild : ∀ a (γ : EV), γ < ⊤ → KM γ ⊤ (fab a γ) (fmm a)) (rest : List A) :
    ∀ (bv : ℚ) (ba : A),
      ∃ p : ℚ × A,
        rest.foldl (abStepMax ⊤ fab) (.running (some (bv, ba)) (max ⊥ (toEV bv)))
          = .running (some p) (max ⊥ (toEV p.1)) ∧
        rest.foldl (mmStepMax fmm) (some (bv, ba)) = some p := by
  induction rest with
  | nil => exact fun bv ba => ⟨(bv, ba), rfl, rfl⟩
  | cons a rest ih =>
    intro bv ba
    have hbm : max (⊥ : EV) (toEV bv) = toEV bv := max_eq_right bot_le
    obtain ⟨K1, K2, K3⟩ := hchild a (max ⊥ (toEV bv))
      (by rw [hbm]; exact toEV_lt_top bv)
    set v := fab a (max ⊥ (toEV bv)) with hv
    rw [List.foldl_cons, abStepMax_running_some, List.foldl_cons]
    have hncut : ¬ (⊤ : EV) ≤ toEV v := not_le.mpr (toEV_lt_top v)
    rw [if_neg hncut]
    by_cases hup : bv < v
    · have htvv : toEV bv < toEV v := toEV_lt_toEV.mpr hup
      have hvaeq : v = fmm a := K3 (by rw [hbm]; exact htvv) (toEV_lt_top v)
      have hmax : max (max ⊥ (toEV bv)) (toEV v) = max ⊥ (toEV v) := by
        rw [hbm, max_eq_right (le_of_lt htvv), max_eq_right bot_le]
      rw [if_pos hup, hmax]
      have hmm : mmStepMax fmm (some (bv, ba)) a = some (v, a) := by
        simp only [mmStepMax]
        rw [← hvaeq, if_pos hup]
      rw [hmm]
      exact ih v a
    · have hvle : v ≤ bv := not_lt.mp hup
      have hK1 : fmm a ≤ v := K1 (by rw [hbm]; exact toEV_le_toEV.mpr hvle)
      rw [if_neg hup]
      have hmm : mmStepMax fmm (some (bv, ba)) a = some (bv, ba) := by
        simp only [mmStepMax]
        rw [if_neg (not_lt.mpr (le_trans hK1 hvle))]
      rw [hmm]
      exact ih bv ba

/-- With the full window `(-inf, inf)` an alpha-beta node returns exactly
the minimax pair — value and action. -/
theorem ab_eq_mm_node (g : Game S A) (fuel : Nat) (s : S) (agent depth : Nat) :
    abMax g fuel s agent depth ⊥ ⊤ = mmMax g fuel s agent depth := by
  cases fuel with
  | zero => rfl
  | succ fuel =>
    by_cases hleaf : depth = g.treeDepth ∨ branches g agent s = []
    · rw [abMax_succ, mmMax_succ, if_pos hleaf, if_pos hleaf]
    · rw [abMax_succ, mmMax_succ, if_neg hleaf, if_neg hleaf]
      cases hacts : branches g agent s with
      | nil => exact absurd (Or.inr hacts) hleaf
      | cons a rest =>
        have hchild : ∀ x (γ : EV), γ < ⊤ → KM γ ⊤
            (abChild g fuel s agent depth γ ⊤ x) (mmChild g fuel s agent depth x) :=
          fun x γ h => child_KM g fuel s agent depth x γ ⊤ h
        rw [List.foldl_cons, List.foldl_cons, abStepMax_running_none]
        obtain ⟨K1, K2, K3⟩ := hchild a ⊥ bot_lt_top_EV
        set v₁ := abChild g fuel s agent depth ⊥ ⊤ a with hv₁
        have hncut : ¬ (⊤ : EV) ≤ toEV v₁ := not_le.mpr (toEV_lt_top _)
        rw [if_neg hncut]
        have hveq : v₁ = mmChild g fuel s agent depth a :=
          K3 (bot_lt_toEV _) (toEV_lt_top _)
        have hmm1 : mmStepMax (mmChild g fuel s agent depth) none a = some (v₁, a) := by
          simp only [mmStepMax]
          rw [← hveq]
        rw [hmm1]
        obtain ⟨p, habf, hmmf⟩ := rootFold_go
          (fun x α2 => abChild g fuel s agent depth α2 ⊤ x)
          (mmChild g fuel s agent depth) (fun x γ h => hchild x γ h) rest v₁ a
        rw [habf, hmmf]
        rfl

/-- C3: for every game configuration (state space, agent count, depth bound
and evaluation function) and every fuel, the alpha-beta root call
`maxValue(s, agent, depth, -inf, inf)` returns the same root value as the
plain minimax root call, and the two `getAction` wrappers return the same
best action — in particular whenever no two root actions tie on value. -/
theorem claim3_alphabeta_matches_minimax (g : Game S A) (fuel : Nat) (s : S)
    (agent depth : Nat) :
    (abMax g fuel s agent depth ⊥ ⊤).1 = (mmMax g fuel s agent depth).1 ∧
    abGetAction g fuel s = mmGetAction g fuel s := by
  refine ⟨congrArg Prod.fst (ab_eq_mm_node g fuel s agent depth), ?_⟩
  unfold abGetAction mmGetAction
  rw [ab_eq_mm_node]

/-! ### Breadth-first search: path lemmas -/

theorem path_nil_eq (p : SearchProblem S A) (s t : S) (h : Path p s [] t) : s = t := by
  cases h
  rfl

theorem path_closed (p : SearchProblem S A) (R : List S)
    (hclosed : ∀ s ∈ R, ∀ c ∈ p.succ s, c.1 ∈ R) :
    ∀ {s : S} {q : List A} {t : S}, Path p s q t → s ∈ R → t ∈ R := by
  intro s q t hpath
  induction hpath with
  | nil s => exact id
  | cons hmem _ ih => exact fun hs => ih (hclosed _ hs _ hmem)

theorem path_snoc (p : SearchProblem S A) {s t u : S} {q : List A} {a : A} {c : ℚ}
    (hpath : Path p s q t) (hmem : (u, a, c) ∈ p.succ t) :
    Path p s (q ++ [a]) u := by
  induction hpath with
  | nil s => exact Path.cons hmem (Path.nil u)
  | cons hmem2 _ ih => exact Path.cons hmem2 (ih hmem)

theorem path_snoc_decomp (p : SearchProblem S A) :
    ∀ {s t : S} {q : List A}, Path p s q t → q ≠ [] →
    ∃ (u : S) (a : A) (c : ℚ) (q2 : List A),
      q = q2 ++ [a] ∧ Path p s q2 u ∧ (t, a, c) ∈ p.succ u := by
  intro s t q hpath
  induction hpath with
  | nil s => exact fun h => absurd rfl h
  | @cons s t u a c as hmem htail ih =>
    intro _
    by_cases has : as = []
    · subst has
      cases htail
      exact ⟨s, a, c, [], rfl, Path.nil s, hmem⟩
    · obtain ⟨w, b, c2, q2, heq, hp, hm⟩ := ih has
      exact ⟨w, b, c2, a :: q2, by rw [heq]; rfl, Path.cons hmem hp, hm⟩

/-- Any non-empty frontier satisfying the invariant admits a split whose
first (depth-`k`) block is non-empty: if the depth-`k` block is exhausted,
the depth counter advances to `k + 1`. -/
theorem BfsInv_head_split [DecidableEq S] (p : SearchProblem S A)
    (frontier : List (BfsNode S A)) (reached : List S)
    (hInv : BfsInv p frontier reached) (hne : frontier ≠ []) :
    ∃ (k : Nat) (F1 F2 : List (BfsNode S A)),
      F1 ≠ [] ∧ frontier = F1 ++ F2 ∧
      (∀ n ∈ F1, n.2.1.length = k) ∧
      (∀ n ∈ F2, n.2.1.length = k + 1) ∧
      (∀ (t : S) (q : List A), Path p p.start q t → q.length < k → t ∈ reached) ∧
      (∀ (t : S) (q : List A), Path p p.start q t → q.length ≤ k →
        t ∈ reached ∨ ∃ n ∈ F1, n.1 = t) := by
  obtain ⟨h1, h2, h3, h4, k, F1, F2, heq, hl1, hl2, hI5, hI6⟩ := hInv
  cases F1 with
  | cons x F1t =>
    exact ⟨k, x :: F1t, F2, by simp, heq, hl1, hl2, hI5, hI6⟩
  | nil =>
    simp only [List.nil_append] at heq
    have hreach : ∀ (t : S) (q : List A), Path p p.start q t → q.length ≤ k →
        t ∈ reached := by
      intro t q hq hlen
      rcases hI6 t q hq hlen with h | ⟨n, hn, _⟩
      · exact h
      · cases hn
    refine ⟨k + 1, F2, [], by rw [heq] at hne; exact hne, by simp [heq],
      hl2, by simp, ?_, ?_⟩
    · intro t q hq hlen
      exact hreach t q hq (Nat.lt_succ_iff.mp hlen)
    · intro t q hq hlen
      rcases Nat.lt_succ_iff_lt_or_eq.mp (Nat.lt_succ_of_le hlen) with h | h
      · exact Or.inl (hreach t q hq (Nat.lt_succ_iff.mp h))
      · have hqne : q ≠ [] := by
          intro hc
          rw [hc] at h
          simp at h
        obtain ⟨u, a, c, q2, heqq, hp2, hm⟩ := path_snoc_decomp p hq hqne
        have hlq2 : q2.length ≤ k := by
          have : q.length = q2.length + 1 := by rw [heqq]; simp
          omega
        have hu : u ∈ reached := hreach u q2 hp2 hlq2
        rcases h3 u hu (t, a, c) hm with ht | ⟨n, hn, hnt⟩
        · exact Or.inl ht
        · exact Or.inr ⟨n, by rw [← heq]; exact hn, hnt⟩

/-- The main loop theorem: as long as the invariant holds and the fuel
exceeds the potential, `bfsLoop` produces a correct outcome — a weakly
shortest goal path, or `none` exactly when no goal is reachable. -/
theorem bfsLoop_correct [DecidableEq S] [Fintype S] (p : SearchProblem S A) :
    ∀ (fuel : Nat) (frontier : List (BfsNode S A)) (reached : List S),
      BfsInv p frontier reached →
      bfsPotential p frontier reached < fuel →
      BfsOutcome p (bfsLoop p fuel frontier reached) := by
  intro fuel
  induction fuel with
  | zero =>
    intro frontier reached _ hpot
    exact absurd hpot (Nat.not_lt_zero _)
  | succ n ih =>
    intro frontier reached hInv hpot
    cases frontier with
    | nil =>
      obtain ⟨h1, h2, h3, h4, _⟩ := hInv
      refine Or.inr ⟨rfl, ?_⟩
      rintro ⟨as, t, hpath, hgoal⟩
      have hclosed : ∀ s ∈ reached, ∀ c ∈ p.succ s, c.1 ∈ reached := by
        intro s hs c hc
        rcases h3 s hs c hc with h | ⟨m, hm, _⟩
        · exact h
        · cases hm
      have hstart : p.start ∈ reached := by
        rcases h4 with h | ⟨m, hm, _⟩
        · exact h
        · cases hm
      have ht : t ∈ reached := path_closed p reached hclosed hpath hstart
      rw [h2 t ht] at hgoal
      cases hgoal
    | cons node rest =>
      obtain ⟨k, F1, F2, hF1ne, heq, hl1, hl2, hI5, hI6⟩ :=
        BfsInv_head_split p (node :: rest) reached hInv (by simp)
      obtain ⟨h1, h2, h3, h4, _⟩ := hInv
      obtain ⟨F1t, hF1⟩ : ∃ F1t, F1 = node :: F1t := by
        cases F1 with
        | nil => exact absurd rfl hF1ne
        | cons x xs =>
          rw [List.cons_append] at heq
          exact ⟨xs, by rw [(List.cons.injEq _ _ _ _).mp heq.symm |>.1]⟩
      have hrest_eq : rest = F1t ++ F2 := by
        rw [hF1, List.cons_append] at heq
        exact ((List.cons.injEq _ _ _ _).mp heq).2
      have hlen_node : node.2.1.length = k :=
        hl1 node (by rw [hF1]; exact List.mem_cons_self _ _)
      have hstep : bfsLoop p (n + 1) (node :: rest) reached =
          if node.1 ∈ reached then bfsLoop p n rest reached
          else if p.isGoal node.1 then some (some node.2.1)
          else bfsLoop p n
            (rest ++ (p.succ node.1).map (fun c => (c.1, node.2.1 ++ [c.2.1], 0)))
            (reached ++ [node.1]) := rfl
      by_cases hskip : node.1 ∈ reached
      · rw [hstep, if_pos hskip]
        refine ih rest reached ⟨?_, h2, ?_, ?_, k, F1t, F2, hrest_eq, ?_, hl2, hI5, ?_⟩ ?_
        · exact fun m hm => h1 m (List.mem_cons_of_mem node hm)
        · intro s hs c hc
          rcases h3 s hs c hc with h | ⟨m, hm, hmc⟩
          · exact Or.inl h
          · rcases List.mem_cons.mp hm with rfl | hm2
            · exact Or.inl (hmc ▸ hskip)
            · exact Or.inr ⟨m, hm2, hmc⟩
        · rcases h4 with h | ⟨m, hm, hmc⟩
          · exact Or.inl h
          · rcases List.mem_cons.mp hm with rfl | hm2
            · exact Or.inl (hmc ▸ hskip)
            · exact Or.inr ⟨m, hm2, hmc⟩
        · exact fun m hm => hl1 m (by rw [hF1]; exact List.mem_cons_of_mem node hm)
        · intro t q hq hlen
          rcases hI6 t q hq hlen with h | ⟨m, hm, hmc⟩
          · exact Or.inl h
          · rw [hF1] at hm
            rcases List.mem_cons.mp hm with rfl | hm2
            · exact Or.inl (hmc ▸ hskip)
            · exact Or.inr ⟨m, hm2, hmc⟩
        · simp only [bfsPotential, List.length_cons] at hpot ⊢
          omega
      · rw [hstep, if_neg hskip]
        by_cases hgoal : p.isGoal node.1 = true
        · rw [if_pos hgoal]
          refine Or.inl ⟨node.2.1, rfl,
            ⟨node.1, h1 node (List.mem_cons_self _ _), hgoal⟩, ?_⟩
          intro q t2 hq hg2
          by_contra hcon
          push_neg at hcon
          rw [hlen_node] at hcon
          have ht2 := hI5 t2 q hq hcon
          rw [h2 t2 ht2] at hg2
          cases hg2
        · rw [if_neg hgoal]
          have hgoalf : p.isGoal node.1 = false := Bool.not_eq_true _ |>.mp hgoal
          refine ih _ _ ⟨?_, ?_, ?_, ?_, k, F1t,
            F2 ++ (p.succ node.1).map (fun c => (c.1, node.2.1 ++ [c.2.1], 0)),
            by rw [hrest_eq, List.append_assoc], ?_, ?_, ?_, ?_⟩ ?_
          · intro m hm
            rcases List.mem_append.mp hm with hm2 | hm2
            · exact h1 m (List.mem_cons_of_mem node hm2)
            · obtain ⟨c, hc, rfl⟩ := List.mem_map.mp hm2
              exact path_snoc p (h1 node (List.mem_cons_self _ _)) hc
          · intro s hs
            rcases List.mem_append.mp hs with hs2 | hs2
            · exact h2 s hs2
            · rw [List.mem_singleton.mp hs2]
              exact hgoalf
          · intro s hs c hc
            rcases List.mem_append.mp hs with hs2 | hs2
            · rcases h3 s hs2 c hc with h | ⟨m, hm, hmc⟩
              · exact Or.inl (List.mem_append_left _ h)
              · rcases List.mem_cons.mp hm with rfl | hm2
                · exact Or.inl (List.mem_append_right _ (hmc ▸ List.mem_singleton_self _))
                · exact Or.inr ⟨m, List.mem_append_left _ hm2, hmc⟩
            · have hs3 := List.mem_singleton.mp hs2
              subst hs3
              exact Or.inr ⟨(c.1, node.2.1 ++ [c.2.1], 0),
                List.mem_append_right _ (List.mem_map_of_mem _ hc), rfl⟩
          · rcases h4 with h | ⟨m, hm, hmc⟩
            · exact Or.inl (List.mem_append_left _ h)
            · rcases List.mem_cons.mp hm with rfl | hm2
              · exact Or.inl (List.mem_append_right _ (hmc ▸ List.mem_singleton_self _))
              · exact Or.inr ⟨m, List.mem_append_left _ hm2, hmc⟩
          · exact fun m hm => hl1 m (by rw [hF1]; exact List.mem_cons_of_mem node hm)
          · intro m hm
            rcases List.mem_append.mp hm with hm2 | hm2
            · exact hl2 m hm2
            · obtain ⟨c, _, rfl⟩ := List.mem_map.mp hm2
              simp [hlen_node]
          · intro t q hq hlen
            exact List.mem_append_left _ (hI5 t q hq hlen)
          · intro t q hq hlen
            rcases hI6 t q hq hlen with h | ⟨m, hm, hmc⟩
            · exact Or.inl (List.mem_append_left _ h)
            · rw [hF1] at hm
              rcases List.mem_cons.mp hm with rfl | hm2
              · exact Or.inl (List.mem_append_right _ (hmc ▸ List.mem_singleton_self _))
              · exact Or.inr ⟨m, hm2, hmc⟩
          · have hseteq : Finset.univ.filter
                (fun s => s ∉ reached ++ [node.1]) =
                (Finset.univ.filter (fun s => s ∉ reached)).erase node.1 := by
              ext x
              simp only [Finset.mem_erase, Finset.mem_filter, Finset.mem_univ,
                true_and, List.mem_append, List.mem_singleton]
              tauto
            have hmem : node.1 ∈ Finset.univ.filter (fun s => s ∉ reached) :=
              Finset.mem_filter.mpr ⟨Finset.mem_univ _, hskip⟩
            have hsum : Finset.sum
                ((Finset.univ.filter (fun s => s ∉ reached)).erase node.1)
                (fun s => 1 + (p.succ s).length) + (1 + (p.succ node.1).length) =
                Finset.sum (Finset.univ.filter (fun s => s ∉ reached))
                (fun s => 1 + (p.succ s).length) :=
              Finset.sum_erase_add
                (Finset.univ.filter (fun s => s ∉ reached))
                (fun s => 1 + (p.succ s).length) hmem
            simp only [bfsPotential, List.length_cons, List.length_append,
              List.length_map, hseteq] at hpot ⊢
            omega

/-- C5: for every search problem over finitely many states, if some goal is
reachable from the start then `breadthFirstSearch` returns a path to a goal
whose action count is minimal over all paths from the start to any goal;
if no goal is reachable the frontier empties and it returns `none`. -/
theorem claim5_bfs_shortest {S A : Type} [DecidableEq A] [DecidableEq S] [Fintype S]
    (p : SearchProblem S A) :
    (goalReachable p →
      ∃ path, breadthFirstSearch p = some path ∧
        (∃ t, Path p p.start path t ∧ p.isGoal t = true) ∧
        (∀ (q : List A) (t2 : S), Path p p.start q t2 → p.isGoal t2 = true →
          path.length ≤ q.length)) ∧
    (¬ goalReachable p → breadthFirstSearch p = none) := by
  by_cases hstart : p.isGoal p.start = true
  · constructor
    · intro _
      exact ⟨[], by simp [breadthFirstSearch, hstart],
        ⟨p.start, Path.nil _, hstart⟩, fun q t2 _ _ => Nat.zero_le _⟩
    · intro hng
      exact absurd ⟨[], p.start, Path.nil _, hstart⟩ hng
  · have hInv0 : BfsInv p [(p.start, [], 0)] [] := by
      refine ⟨?_, ?_, ?_, ?_, 0, [(p.start, [], 0)], [], by simp, ?_, by simp, ?_, ?_⟩
      · intro m hm
        rw [List.mem_singleton.mp hm]
        exact Path.nil _
      · intro s hs
        cases hs
      · intro s hs
        cases hs
      · exact Or.inr ⟨(p.start, [], 0), List.mem_singleton_self _, rfl⟩
      · intro m hm
        rw [List.mem_singleton.mp hm]
        rfl
      · intro t q _ hlen
        exact absurd hlen (Nat.not_lt_zero _)
      · intro t q hq hlen
        have hq0 : q = [] := List.length_eq_zero.mp (Nat.le_zero.mp hlen)
        subst hq0
        exact Or.inr ⟨(p.start, [], 0), List.mem_singleton_self _,
          path_nil_eq p _ _ hq⟩
    have hpot0 : bfsPotential p [(p.start, [], 0)] [] < bfsFuel p := by
      simp only [bfsPotential, bfsFuel, List.length_singleton, List.not_mem_nil,
        not_false_eq_true, Finset.filter_True]
      omega
    have hout := bfsLoop_correct p (bfsFuel p) [(p.start, [], 0)] [] hInv0 hpot0
    rcases hout with ⟨path, heq, hex, hmin⟩ | ⟨heq, hng⟩
    · constructor
      · intro _
        exact ⟨path, by simp [breadthFirstSearch, hstart, heq], hex, hmin⟩
      · intro hng
        obtain ⟨t, hp, hg⟩ := hex
        exact absurd ⟨path, t, hp, hg⟩ hng
    · constructor
      · intro h
        exact absurd h hng
      · intro _
        simp [breadthFirstSearch, hstart, heq]

/-- Witness for C5: on the concrete three-state line problem a goal is
reachable, and breadth-first search returns its (unique, hence shortest)
goal path. -/
theorem claim5_witness :
    goalReachable lineProb ∧
    ∃ path, breadthFirstSearch lineProb = some path ∧
      (∃ t, Path lineProb lineProb.start path t ∧ lineProb.isGoal t = true) ∧
      (∀ (q : List Nat) (t2 : Fin 3), Path lineProb lineProb.start q t2 →
        lineProb.isGoal t2 = true → path.length ≤ q.length) := by
  have hreach : goalReachable lineProb :=
    ⟨[10, 20], 2, Path.cons (t := 1) (c := 0) (by decide)
      (Path.cons (t := 2) (c := 0) (by decide) (Path.nil _)), by decide⟩
  exact ⟨hreach, (claim5_bfs_shortest lineProb).1 hreach⟩

/-- Witness for C1 (amended): ghost on pacman's square versus ghost
adjacent. -/
theorem claim1_witness :
    betterEvaluationFunction overlapGhostState =
      overlapGhostState.score + (-999999) ∧
    betterEvaluationFunction overlapGhostState <
      betterEvaluationFunction adjacentGhostState :=
  claim1_overlap_ghost_sentinel overlapGhostState adjacentGhostState
    (by decide) (by decide) (by decide) rfl (by decide) (by decide)

end PacSearch
